import Mathlib

/-!
A shallow embedding of the core of the `sharedwealth` proof-of-work
blockchain node (block.ts, transaction.ts, client.ts, miner.ts, utils.ts).

Modelling conventions:
* JavaScript `Map` objects (insertion-ordered) are modelled as association
  lists (`List (κ × α)`) with `mapGet` / `mapSet` / `mapRemove` mirroring
  `Map.get` / `Map.set` / `Map.delete`.
* JavaScript numbers are modelled as `Int` where subtraction can occur
  (gold amounts, fees) and as `Nat` for counters (nonces, chain lengths,
  timestamps, proofs).
* The cryptographic primitives of utils.ts (SHA-256 hashing, RSA signing
  and verification, address derivation) are external to the repository's
  logic; they are passed in as a `Crypto` record of string functions, so
  every theorem is proved for an arbitrary choice of primitives and
  witnesses instantiate them with concrete executable functions.
* `JSON.stringify` is modelled character-exactly (field order, string
  escaping, omission of `undefined` fields) by explicit renderers, and
  `JSON.parse`, as used by `Block.deserialize`, by a parser for the exact
  canonical grammar that `Block.serialize` emits.
-/

/-- The external cryptographic primitives of utils.ts.  `hash` is SHA-256
rendered in hex, `sign`/`verify` the RSA-SHA256 signature pair, and
`calcAddress` derives an address from a public key. -/
structure Crypto where
  hash : String → String
  sign : String → String → String
  verify : String → String → String → Bool
  calcAddress : String → String

/-- `Map.get`: first binding of the key, if any. -/
def mapGet {κ α : Type} [DecidableEq κ] : List (κ × α) → κ → Option α
  | [], _ => none
  | (k', v) :: rest, k => if k' = k then some v else mapGet rest k

/-- `Map.set`: replace the binding in place if the key is present,
otherwise append it (JS `Map` preserves insertion order). -/
def mapSet {κ α : Type} [DecidableEq κ] : List (κ × α) → κ → α → List (κ × α)
  | [], k, v => [(k, v)]
  | (k', v') :: rest, k, v =>
    if k' = k then (k, v) :: rest else (k', v') :: mapSet rest k v

/-- `Map.delete`: drop the binding of the key, if present. -/
def mapRemove {κ α : Type} [DecidableEq κ] : List (κ × α) → κ → List (κ × α)
  | [], _ => []
  | (k', v') :: rest, k => if k' = k then rest else (k', v') :: mapRemove rest k

theorem mapGet_mapSet_self {κ α : Type} [DecidableEq κ] (m : List (κ × α)) (k : κ) (v : α) :
    mapGet (mapSet m k v) k = some v := by
  induction m with
  | nil => simp [mapGet, mapSet]
  | cons p rest ih =>
    obtain ⟨k', v'⟩ := p
    by_cases h : k' = k <;> simp [mapGet, mapSet, h, ih]

theorem mapGet_mapSet_ne {κ α : Type} [DecidableEq κ] (m : List (κ × α)) (k k' : κ) (v : α)
    (h : k ≠ k') : mapGet (mapSet m k v) k' = mapGet m k' := by
  induction m with
  | nil => simp [mapGet, mapSet, h]
  | cons p rest ih =>
    obtain ⟨k0, v0⟩ := p
    by_cases h0 : k0 = k
    · subst h0
      simp [mapGet, mapSet, h]
    · simp only [mapSet, if_neg h0]
      by_cases h1 : k0 = k' <;> simp [mapGet, h1, ih]

theorem mapSet_of_get_none {κ α : Type} [DecidableEq κ] (m : List (κ × α)) (k : κ) (v : α)
    (h : mapGet m k = none) : mapSet m k v = m ++ [(k, v)] := by
  induction m with
  | nil => simp [mapSet]
  | cons p rest ih =>
    obtain ⟨k', v'⟩ := p
    by_cases h0 : k' = k
    · simp [mapGet, h0] at h
    · simp only [mapGet, if_neg h0] at h
      simp [mapSet, h0, ih h]

theorem mapGet_of_get_none {κ α : Type} [DecidableEq κ] (m : List (κ × α)) (k k' : κ) (v : α)
    (h : mapGet m k = none) :
    mapGet (mapSet m k v) k' = if k' = k then some v else mapGet m k' := by
  by_cases hk : k' = k
  · subst hk; simp [mapGet_mapSet_self, h]
  · simp [hk, mapGet_mapSet_ne m k k' v (fun he => hk he.symm)]

theorem mapGet_mem {κ α : Type} [DecidableEq κ] (m : List (κ × α)) (k : κ) (v : α)
    (h : mapGet m k = some v) : (k, v) ∈ m := by
  induction m with
  | nil => simp [mapGet] at h
  | cons p rest ih =>
    obtain ⟨k', v'⟩ := p
    by_cases h0 : k' = k
    · subst h0
      simp [mapGet] at h
      simp [h]
    · simp only [mapGet, if_neg h0] at h
      exact List.mem_cons_of_mem _ (ih h)

/-- One entry of a transaction's `outputs` array: `{amount, address}`. -/
structure Output where
  amount : Int
  address : String
deriving DecidableEq, Repr

/-- transaction.ts: a value transfer.  The JS field `from` is the Lean
keyword `from`, so it is rendered `fromAddr` here. -/
structure Transaction where
  fromAddr : String
  nonce : Nat
  pubKey : String
  sig : Option String
  fee : Int
  outputs : List Output
deriving DecidableEq, Repr

/-- Decimal digit character (only used with `d < 10`). -/
def decDig (d : Nat) : Char :=
  match d with
  | 0 => '0' | 1 => '1' | 2 => '2' | 3 => '3' | 4 => '4'
  | 5 => '5' | 6 => '6' | 7 => '7' | 8 => '8' | 9 => '9'
  | _ => '0'

/-- Lowercase hex digit character (only used with `d < 16`). -/
def hexDig (d : Nat) : Char :=
  match d with
  | 0 => '0' | 1 => '1' | 2 => '2' | 3 => '3' | 4 => '4'
  | 5 => '5' | 6 => '6' | 7 => '7' | 8 => '8' | 9 => '9'
  | 10 => 'a' | 11 => 'b' | 12 => 'c' | 13 => 'd' | 14 => 'e' | 15 => 'f'
  | _ => '0'

/-- Decimal rendering of a natural number, as `JSON.stringify` renders an
integral JS number.  The first argument is fuel; `renderNat` supplies
`n + 1`, which always suffices since the argument shrinks at every step. -/
def renderNatAux : Nat → Nat → List Char
  | 0, _ => []
  | fuel + 1, n =>
    if n < 10 then [decDig n] else renderNatAux fuel (n / 10) ++ [decDig (n % 10)]

def renderNat (n : Nat) : List Char := renderNatAux (n + 1) n

/-- `JSON.stringify` rendering of an integral JS number. -/
def renderInt (n : Int) : List Char :=
  if n < 0 then '-' :: renderNat (-n).toNat else renderNat n.toNat

/-- `JSON.stringify` escaping of a single character inside a string
literal: `"` and `\` are backslash-escaped, the control characters with
short forms use them, the remaining control characters become `\u00xx`. -/
def escChar (c : Char) : List Char :=
  if c = '"' then ['\\', '"']
  else if c = '\\' then ['\\', '\\']
  else if c = '\x08' then ['\\', 'b']
  else if c = '\x0c' then ['\\', 'f']
  else if c = '\n' then ['\\', 'n']
  else if c = '\r' then ['\\', 'r']
  else if c = '\t' then ['\\', 't']
  else if c.toNat < 32 then ['\\', 'u', '0', '0', hexDig (c.toNat / 16), hexDig (c.toNat % 16)]
  else [c]

def escList : List Char → List Char
  | [] => []
  | c :: rest => escChar c ++ escList rest

/-- `JSON.stringify` rendering of a JS string (quotes plus escaping). -/
def renderStr (s : String) : List Char := '"' :: (escList s.toList ++ ['"'])

/-- Comma-separated concatenation, the inside of a JSON array. -/
def renderCommaSep : List (List Char) → List Char
  | [] => []
  | [x] => x
  | x :: rest => x ++ ',' :: renderCommaSep rest

/-- `JSON.stringify` of one output object: `{"amount":..,"address":..}`
(object-literal key order from transaction.ts / test.ts). -/
def Output.render (o : Output) : List Char :=
  ['\x7b', '"', 'a', 'm', 'o', 'u', 'n', 't', '"', ':'] ++ renderInt o.amount ++
  [',', '"', 'a', 'd', 'd', 'r', 'e', 's', 's', '"', ':'] ++ renderStr o.address ++ ['\x7d']

/-- The canonical JSON `{from, nonce, pubKey, outputs, fee}` hashed (with
the `"TX"` tag) to form a transaction's id (transaction.ts `get id`). -/
def Transaction.contentChars (t : Transaction) : List Char :=
  ['\x7b', '"', 'f', 'r', 'o', 'm', '"', ':'] ++ renderStr t.fromAddr ++
  [',', '"', 'n', 'o', 'n', 'c', 'e', '"', ':'] ++ renderNat t.nonce ++
  [',', '"', 'p', 'u', 'b', 'K', 'e', 'y', '"', ':'] ++ renderStr t.pubKey ++
  [',', '"', 'o', 'u', 't', 'p', 'u', 't', 's', '"', ':', '['] ++
    renderCommaSep (t.outputs.map Output.render) ++ [']'] ++
  [',', '"', 'f', 'e', 'e', '"', ':'] ++ renderInt t.fee ++ ['\x7d']

/-- transaction.ts `get id`: `hash(TX_CONST + JSON.stringify({from, nonce,
pubKey, outputs, fee}))`.  The signature is not part of the preimage. -/
def Transaction.id (c : Crypto) (t : Transaction) : String :=
  c.hash ("TX" ++ String.mk t.contentChars)

/-- transaction.ts `sign`: store `sign(privKey, id)` in `sig`. -/
def Transaction.signTx (c : Crypto) (privKey : String) (t : Transaction) : Transaction :=
  { t with sig := some (c.sign privKey (t.id c)) }

/-- transaction.ts `validSignature`. -/
def Transaction.validSignature (c : Crypto) (t : Transaction) : Bool :=
  t.sig.isSome && (t.fromAddr = c.calcAddress t.pubKey : Bool) &&
    (match t.sig with
     | some s => c.verify t.pubKey (t.id c) s
     | none => false)

/-- transaction.ts `totalOutput`: fee plus the sum of the output amounts
(`outputs.reduce((tot, {amount}) => tot + amount, fee)`). -/
def Transaction.totalOutput (t : Transaction) : Int :=
  t.outputs.foldl (fun tot o => tot + o.amount) t.fee

/-- transaction.ts `sufficientFunds`: a missing sender means false,
otherwise `totalOutput() <= balance`. -/
def Transaction.sufficientFunds (t : Transaction) (balances : List (String × Int)) : Bool :=
  match mapGet balances t.fromAddr with
  | none => false
  | some bal => t.totalOutput ≤ bal

/-- `JSON.stringify` of a whole transaction as it is embedded in a
serialized block: fields in constructor-assignment order
`from, nonce, pubKey, sig, fee, outputs`, with `sig` omitted when it is
`undefined` (JSON.stringify drops undefined-valued properties). -/
def Transaction.wireChars (t : Transaction) : List Char :=
  ['\x7b', '"', 'f', 'r', 'o', 'm', '"', ':'] ++ renderStr t.fromAddr ++
  [',', '"', 'n', 'o', 'n', 'c', 'e', '"', ':'] ++ renderNat t.nonce ++
  [',', '"', 'p', 'u', 'b', 'K', 'e', 'y', '"', ':'] ++ renderStr t.pubKey ++
  (match t.sig with
   | some s => [',', '"', 's', 'i', 'g', '"', ':'] ++ renderStr s
   | none => []) ++
  [',', '"', 'f', 'e', 'e', '"', ':'] ++ renderInt t.fee ++
  [',', '"', 'o', 'u', 't', 'p', 'u', 't', 's', '"', ':', '['] ++
    renderCommaSep (t.outputs.map Output.render) ++ [']', '\x7d']

/-- block.ts: a block.  `transactions` is the insertion-ordered map from
transaction id to transaction; `balances` and `nextNonce` are the derived
(non-serialized) state. -/
structure Block where
  chainLength : Nat
  prevBlockHash : String
  proof : Option Nat
  timestamp : Nat
  target : Nat
  coinbaseReward : Int
  rewardAddr : String
  transactions : List (String × Transaction)
  balances : List (String × Int)
  nextNonce : List (String × Nat)
deriving DecidableEq, Repr

/-- block.ts `POW_BASE_TARGET`: sixty-four hex `f`s. -/
def POW_BASE_TARGET : Nat := 2 ^ 256 - 1

/-- block.ts `HIT_POW_TARGET = POW_BASE_TARGET >> 15`. -/
def HIT_POW_TARGET : Nat := POW_BASE_TARGET / 2 ^ 15

/-- block.ts `COINBASE_AMT_ALLOWED`. -/
def COINBASE_AMT_ALLOWED : Int := 25

/-- block.ts `balanceOf`: `balances.get(addr) || 0`. -/
def Block.balanceOf (b : Block) (addr : String) : Int :=
  (mapGet b.balances addr).getD 0

/-- block.ts `totalRewards`: coinbase reward plus all transaction fees. -/
def Block.totalRewards (b : Block) : Int :=
  b.transactions.foldl (fun reward kv => reward + kv.2.fee) b.coinbaseReward

/-- `JSON.stringify` of one `[id, tx]` entry of the transactions array. -/
def pairRender (kv : String × Transaction) : List Char :=
  '[' :: (renderStr kv.1 ++ ',' :: (kv.2.wireChars ++ [']']))

/-- block.ts `serialize`, character-exactly: `JSON.stringify` of
`{transactions: Array.from(transactions.entries()), prevBlockHash,
timestamp, proof, rewardAddr, chainLength}`, where a transaction entry is
the two-element array `[id, tx]` and an `undefined` proof is omitted. -/
def Block.serializeChars (b : Block) : List Char :=
  ['\x7b', '"', 't', 'r', 'a', 'n', 's', 'a', 'c', 't', 'i', 'o', 'n', 's', '"', ':', '['] ++
    renderCommaSep (b.transactions.map pairRender) ++ [']'] ++
  [',', '"', 'p', 'r', 'e', 'v', 'B', 'l', 'o', 'c', 'k', 'H', 'a', 's', 'h', '"', ':'] ++
    renderStr b.prevBlockHash ++
  [',', '"', 't', 'i', 'm', 'e', 's', 't', 'a', 'm', 'p', '"', ':'] ++ renderNat b.timestamp ++
  (match b.proof with
   | some p => [',', '"', 'p', 'r', 'o', 'o', 'f', '"', ':'] ++ renderNat p
   | none => []) ++
  [',', '"', 'r', 'e', 'w', 'a', 'r', 'd', 'A', 'd', 'd', 'r', '"', ':'] ++
    renderStr b.rewardAddr ++
  [',', '"', 'c', 'h', 'a', 'i', 'n', 'L', 'e', 'n', 'g', 't', 'h', '"', ':'] ++
    renderNat b.chainLength ++ ['\x7d']

def Block.serialize (b : Block) : String := String.mk b.serializeChars

/-- block.ts `hashVal`: hash of the serialized block. -/
def Block.hashVal (c : Crypto) (b : Block) : String := c.hash b.serialize

/-- block.ts `get id`. -/
def Block.id (c : Crypto) (b : Block) : String := b.hashVal c

/-- `new BigInteger(h, 16)` of jsbn applied to a hex digest: the hex
string read as an unsigned big integer. -/
def hexVal (c : Char) : Option Nat :=
  if '0' ≤ c ∧ c ≤ '9' then some (c.toNat - 48)
  else if 'a' ≤ c ∧ c ≤ 'f' then some (c.toNat - 87)
  else if 'A' ≤ c ∧ c ≤ 'F' then some (c.toNat - 55)
  else none

def hexStrToNat (s : String) : Nat :=
  s.toList.foldl (fun acc c => acc * 16 + (hexVal c).getD 0) 0

/-- block.ts `hasValidProof`: the hash of the serialized block, read as an
unsigned big integer, is strictly below the target. -/
def Block.hasValidProof (c : Crypto) (b : Block) : Bool :=
  hexStrToNat (c.hash b.serialize) < b.target

/-- The repeated credit loop of `addTransaction`:
`tx.outputs.forEach(({amount, address}) => balances.set(address, amount + balanceOf(address)))`. -/
def applyOutputs (balances : List (String × Int)) : List Output → List (String × Int)
  | [] => balances
  | o :: rest =>
    applyOutputs (mapSet balances o.address (o.amount + (mapGet balances o.address).getD 0)) rest

/-- block.ts `addTransaction`: admission checks in source order (duplicate
id, unsigned, invalid signature, insufficient funds, nonce replay, nonce
out of order), then the state update (bump the sender's next nonce, insert
the transaction, debit the sender, credit the outputs).  Returns the JS
boolean plus the updated block (unchanged on failure). -/
def Block.addTransaction (c : Crypto) (b : Block) (tx : Transaction) : Bool × Block :=
  if (mapGet b.transactions (tx.id c)).isSome then (false, b)
  else if tx.sig.isNone then (false, b)
  else if ¬ tx.validSignature c then (false, b)
  else if ¬ tx.sufficientFunds b.balances then (false, b)
  -- the source binds `nonce = nextNonce.get(tx.from) || 0` once; it is
  -- inlined here at its three use sites
  else if tx.nonce < (mapGet b.nextNonce tx.fromAddr).getD 0 then (false, b)
  else if (mapGet b.nextNonce tx.fromAddr).getD 0 < tx.nonce then (false, b)
  else
    (true, { b with
      nextNonce := mapSet b.nextNonce tx.fromAddr
        ((mapGet b.nextNonce tx.fromAddr).getD 0 + 1),
      transactions := mapSet b.transactions (tx.id c) tx,
      balances := applyOutputs
        (mapSet b.balances tx.fromAddr (b.balanceOf tx.fromAddr - tx.totalOutput))
        tx.outputs })

/-- block.ts constructor `new Block(rewardAddr, prevBlock?, target, coinbaseReward)`.
`timestamp` stands for the ambient `Date.now()`.  Balances and next nonces
are copied from the parent, and when the parent names a (truthy, i.e.
non-empty) reward address it is credited with the parent's total rewards. -/
def Block.make (c : Crypto) (rewardAddr : String) (prevBlock : Option Block)
    (target : Nat) (coinbaseReward : Int) (timestamp : Nat) : Block :=
  let balances0 := match prevBlock with
    | some p => p.balances
    | none => []
  { chainLength := match prevBlock with
      | some p => p.chainLength + 1
      | none => 0
    prevBlockHash := match prevBlock with
      | some p => p.hashVal c
      | none => ""
    proof := none
    timestamp := timestamp
    target := target
    coinbaseReward := coinbaseReward
    rewardAddr := rewardAddr
    transactions := []
    balances := match prevBlock with
      | some p =>
        if p.rewardAddr ≠ "" then
          mapSet balances0 p.rewardAddr (((mapGet balances0 p.rewardAddr).getD 0) + p.totalRewards)
        else balances0
      | none => balances0
    nextNonce := match prevBlock with
      | some p => p.nextNonce
      | none => [] }

/-- The re-admission loop of block.ts `rerun`: add each transaction in
turn, stopping at (and reporting) the first failure. -/
def Block.rerunLoop (c : Crypto) : Block → List Transaction → Bool × Block
  | b, [] => (true, b)
  | b, tx :: rest =>
    let r := b.addTransaction c tx
    if r.1 then Block.rerunLoop c r.2 rest else (false, r.2)

/-- block.ts `rerun`: reset `balances`/`nextNonce` from the parent, credit
the parent's reward address with the parent's total rewards (note: without
the constructor's truthiness guard on `prevBlock.rewardAddr`), then move
the transactions aside and re-admit them in insertion order. -/
def Block.rerun (c : Crypto) (b prevBlock : Block) : Bool × Block :=
  let b0 := { b with balances := prevBlock.balances, nextNonce := prevBlock.nextNonce }
  let b1 := { b0 with
    balances := mapSet b0.balances prevBlock.rewardAddr
      (b0.balanceOf prevBlock.rewardAddr + prevBlock.totalRewards) }
  Block.rerunLoop c { b1 with transactions := [] } (b1.transactions.map (fun kv => kv.2))

/-- Consume an expected literal sequence of characters. -/
def expectChars : List Char → List Char → Option (List Char)
  | [], cs => some cs
  | _ :: _, [] => none
  | p :: ps, c :: cs => if c = p then expectChars ps cs else none

/-- Parse the body of a JSON string literal (after the opening quote),
undoing `JSON.stringify` escaping.  `acc` holds the characters read so
far, in reverse. -/
def parseStrChars : List Char → List Char → Option (String × List Char)
  | [], _ => none
  | c :: cs, acc =>
    if c = '"' then some (String.mk acc.reverse, cs)
    else if c = '\\' then
      match cs with
      | [] => none
      | e :: cs' =>
        if e = '"' then parseStrChars cs' ('"' :: acc)
        else if e = '\\' then parseStrChars cs' ('\\' :: acc)
        else if e = '/' then parseStrChars cs' ('/' :: acc)
        else if e = 'b' then parseStrChars cs' ('\x08' :: acc)
        else if e = 'f' then parseStrChars cs' ('\x0c' :: acc)
        else if e = 'n' then parseStrChars cs' ('\n' :: acc)
        else if e = 'r' then parseStrChars cs' ('\r' :: acc)
        else if e = 't' then parseStrChars cs' ('\t' :: acc)
        else if e = 'u' then
          match cs' with
          | h1 :: h2 :: h3 :: h4 :: cs'' =>
            match hexVal h1, hexVal h2, hexVal h3, hexVal h4 with
            | some a, some b, some c3, some d =>
              parseStrChars cs'' (Char.ofNat (((a * 16 + b) * 16 + c3) * 16 + d) :: acc)
            | _, _, _, _ => none
          | _ => none
        else none
    else parseStrChars cs (c :: acc)

/-- Parse a JSON string literal including its opening quote. -/
def parseString : List Char → Option (String × List Char)
  | c :: cs => if c = '"' then parseStrChars cs [] else none
  | [] => none

/-- Greedily consume decimal digits, extending the accumulator. -/
def parseDigits : List Char → Nat → Nat × List Char
  | [], acc => (acc, [])
  | c :: cs, acc =>
    if c.isDigit then parseDigits cs (acc * 10 + (c.toNat - 48)) else (acc, c :: cs)

/-- Parse a JSON natural number (at least one digit). -/
def parseNat : List Char → Option (Nat × List Char)
  | [] => none
  | c :: cs => if c.isDigit then some (parseDigits cs (c.toNat - 48)) else none

/-- Parse a JSON integer (optional minus sign). -/
def parseInt : List Char → Option (Int × List Char)
  | [] => none
  | c :: cs =>
    if c = '-' then (parseNat cs).map (fun p => (-(p.1 : Int), p.2))
    else (parseNat (c :: cs)).map (fun p => ((p.1 : Int), p.2))

/-- Parse one output object `{"amount":..,"address":..}`. -/
def parseOutput (cs : List Char) : Option (Output × List Char) := do
  let cs ← expectChars ['\x7b', '"', 'a', 'm', 'o', 'u', 'n', 't', '"', ':'] cs
  let (amt, cs) ← parseInt cs
  let cs ← expectChars [',', '"', 'a', 'd', 'd', 'r', 'e', 's', 's', '"', ':'] cs
  let (addr, cs) ← parseString cs
  let cs ← expectChars ['\x7d'] cs
  some ({ amount := amt, address := addr }, cs)

/-- Parse the rest of an output array after its first element: either a
closing bracket or a comma followed by a further element. -/
def parseOutputsTail : Nat → List Char → Option (List Output × List Char)
  | _, ']' :: cs => some ([], cs)
  | fuel + 1, ',' :: cs => do
    let (o, cs) ← parseOutput cs
    let (os, cs) ← parseOutputsTail fuel cs
    some (o :: os, cs)
  | _, _ => none

/-- Parse the inside of an output array (the opening bracket has been
consumed). -/
def parseOutputs (fuel : Nat) : List Char → Option (List Output × List Char)
  | ']' :: cs => some ([], cs)
  | cs => do
    let (o, cs) ← parseOutput cs
    let (os, cs) ← parseOutputsTail fuel cs
    some (o :: os, cs)

/-- Parse one transaction object on the wire (`sig` optional, exactly as
`JSON.stringify` omitted or kept it). -/
def parseTx (fuel : Nat) (cs : List Char) : Option (Transaction × List Char) := do
  let cs ← expectChars ['\x7b', '"', 'f', 'r', 'o', 'm', '"', ':'] cs
  let (fromA, cs) ← parseString cs
  let cs ← expectChars [',', '"', 'n', 'o', 'n', 'c', 'e', '"', ':'] cs
  let (nonce, cs) ← parseNat cs
  let cs ← expectChars [',', '"', 'p', 'u', 'b', 'K', 'e', 'y', '"', ':'] cs
  let (pk, cs) ← parseString cs
  let (sig, cs) ← match expectChars [',', '"', 's', 'i', 'g', '"', ':'] cs with
    | some cs' => do
      let (s, cs'') ← parseString cs'
      some ((some s : Option String), cs'')
    | none => some ((none : Option String), cs)
  let cs ← expectChars [',', '"', 'f', 'e', 'e', '"', ':'] cs
  let (fee, cs) ← parseInt cs
  let cs ← expectChars [',', '"', 'o', 'u', 't', 'p', 'u', 't', 's', '"', ':', '['] cs
  let (outs, cs) ← parseOutputs fuel cs
  let cs ← expectChars ['\x7d'] cs
  some ({ fromAddr := fromA, nonce := nonce, pubKey := pk, sig := sig,
          fee := fee, outputs := outs }, cs)

/-- Parse one `[id, tx]` entry of the serialized transactions array. -/
def parseTxPair (fuel : Nat) (cs : List Char) : Option ((String × Transaction) × List Char) := do
  let cs ← expectChars ['['] cs
  let (txId, cs) ← parseString cs
  let cs ← expectChars [','] cs
  let (tx, cs) ← parseTx fuel cs
  let cs ← expectChars [']'] cs
  some ((txId, tx), cs)

def parseTxPairsTail : Nat → List Char → Option (List (String × Transaction) × List Char)
  | _, ']' :: cs => some ([], cs)
  | fuel + 1, ',' :: cs => do
    let (p, cs) ← parseTxPair fuel cs
    let (ps, cs) ← parseTxPairsTail fuel cs
    some (p :: ps, cs)
  | _, _ => none

/-- Parse the inside of the serialized transactions array. -/
def parseTxPairs (fuel : Nat) : List Char → Option (List (String × Transaction) × List Char)
  | ']' :: cs => some ([], cs)
  | cs => do
    let (p, cs) ← parseTxPair fuel cs
    let (ps, cs) ← parseTxPairsTail fuel cs
    some (p :: ps, cs)

/-- block.ts `deserialize` on an already-tokenised character list:
`JSON.parse` the canonical block JSON, then rebuild a block the way the
source does — `new Block(o.rewardAddr)` (default target and coinbase
reward, empty derived maps) with the serialized fields restored and the
transactions re-created in order. -/
def parseBlockChars (fuel : Nat) (cs : List Char) : Option Block := do
  let cs ← expectChars
    ['\x7b', '"', 't', 'r', 'a', 'n', 's', 'a', 'c', 't', 'i', 'o', 'n', 's', '"', ':', '['] cs
  let (txs, cs) ← parseTxPairs fuel cs
  let cs ← expectChars
    [',', '"', 'p', 'r', 'e', 'v', 'B', 'l', 'o', 'c', 'k', 'H', 'a', 's', 'h', '"', ':'] cs
  let (ph, cs) ← parseString cs
  let cs ← expectChars [',', '"', 't', 'i', 'm', 'e', 's', 't', 'a', 'm', 'p', '"', ':'] cs
  let (ts, cs) ← parseNat cs
  let (proof, cs) ← match expectChars [',', '"', 'p', 'r', 'o', 'o', 'f', '"', ':'] cs with
    | some cs' => do
      let (p, cs'') ← parseNat cs'
      some ((some p : Option Nat), cs'')
    | none => some ((none : Option Nat), cs)
  let cs ← expectChars [',', '"', 'r', 'e', 'w', 'a', 'r', 'd', 'A', 'd', 'd', 'r', '"', ':'] cs
  let (ra, cs) ← parseString cs
  let cs ← expectChars [',', '"', 'c', 'h', 'a', 'i', 'n', 'L', 'e', 'n', 'g', 't', 'h', '"', ':'] cs
  let (cl, cs) ← parseNat cs
  let cs ← expectChars ['\x7d'] cs
  if cs = [] then
    some { chainLength := cl, prevBlockHash := ph, proof := proof, timestamp := ts,
           target := HIT_POW_TARGET, coinbaseReward := COINBASE_AMT_ALLOWED,
           rewardAddr := ra, transactions := txs, balances := [], nextNonce := [] }
  else none

/-- block.ts `deserialize`. -/
def Block.deserialize (s : String) : Option Block :=
  parseBlockChars s.toList.length s.toList

/-- client.ts `CONFIRMED_DEPTH`. -/
def CONFIRMED_DEPTH : Nat := 6

/-- client.ts `DEFAULT_TX_FEE`. -/
def DEFAULT_TX_FEE : Int := 1

/-- client.ts state after `setGenesisBlock` has run: the keys, derived
address, outbound nonce, pending-spent counter, block store, orphan queue
and the two chain pointers. -/
structure ClientState where
  address : String
  pubKey : String
  privKey : String
  nonce : Nat
  pendingSpent : Int
  blocks : List (String × Block)
  pendingBlocks : List (String × List Block)
  lastConfirmedBlock : Block
  lastBlock : Block
deriving DecidableEq, Repr

/-- client.ts constructor plus `setGenesisBlock(startingBlock)`:
`address = calcAddress(public)`, `nonce = 0`, `pendingSpent = 0`, the
starting block stored and installed as both chain pointers. -/
def Client.init (c : Crypto) (pubKey privKey : String) (startingBlock : Block) : ClientState :=
  { address := c.calcAddress pubKey
    pubKey := pubKey
    privKey := privKey
    nonce := 0
    pendingSpent := 0
    blocks := [(startingBlock.id c, startingBlock)]
    pendingBlocks := []
    lastConfirmedBlock := startingBlock
    lastBlock := startingBlock }

/-- client.ts `get confirmedBalance`. -/
def Client.confirmedBalance (st : ClientState) : Int :=
  st.lastConfirmedBlock.balanceOf st.address

/-- client.ts `get availableGold`. -/
def Client.availableGold (st : ClientState) : Int :=
  Client.confirmedBalance st - st.pendingSpent

/-- client.ts `postTransaction`: compute the total payment, raise an
insufficient-funds error when it exceeds the available gold (nothing else
happens in that case), otherwise build the transaction from the client's
address and current nonce, sign it, bump the nonce, and broadcast it as
POST_TRANSACTION.  The successful result carries the updated state and
the broadcast `(message, payload)` pair. -/
def Client.postTransaction (c : Crypto) (st : ClientState) (outputs : List Output)
    (fee : Int) : Except String (ClientState × (String × Transaction)) :=
  let totalPayments := outputs.foldl (fun acc o => acc + o.amount) 0 + fee
  if Client.availableGold st < totalPayments then
    Except.error "insufficient funds"
  else
    let tx : Transaction :=
      { fromAddr := st.address, nonce := st.nonce, pubKey := st.pubKey,
        sig := none, fee := fee, outputs := outputs }
    let tx := tx.signTx c st.privKey
    Except.ok ({ st with nonce := st.nonce + 1 }, ("POST_TRANSACTION", tx))

/-- The `while` loop of client.ts `setLastConfirmed`: follow parent hashes
through the block store while the chain length still exceeds the
confirmed height.  The source loop has no fuel; the model's fuel (one more
than the starting chain length) is enough whenever the store holds a
parent of smaller chain length at every step, and on a store where the
source would crash on a missing parent the model stops the walk instead
(the theorems below only use it under hypotheses that rule this out). -/
def Client.walkBack (blocks : List (String × Block)) : Nat → Block → Nat → Block
  | 0, b, _ => b
  | fuel + 1, b, t =>
    if t < b.chainLength then
      match mapGet blocks b.prevBlockHash with
      | some p => Client.walkBack blocks fuel p t
      | none => b
    else b

/-- client.ts `setLastConfirmed`: the confirmed height is
`max(0, lastBlock.chainLength − 6)` (truncated `Nat` subtraction), and
the confirmed block is found by walking parents from `lastBlock`. -/
def Client.setLastConfirmed (st : ClientState) : ClientState :=
  let t := st.lastBlock.chainLength - CONFIRMED_DEPTH
  { st with lastConfirmedBlock :=
      Client.walkBack st.blocks (st.lastBlock.chainLength + 1) st.lastBlock t }

/-- client.ts `receiveBlock` (on an already-deserialized block): ignore a
previously stored block, reject on invalid proof, queue the block (and
request the parent) when the parent is missing, reject when `rerun`
fails; otherwise store the rerun block, adopt it as `lastBlock` exactly
when it has a strictly longer chain (recomputing `lastConfirmedBlock`),
then recursively process any blocks that were waiting on it.  The fuel
bounds the recursion depth through unstuck orphans; the top-level call is
never the one that exhausts it in the scenarios proved below. -/
def Client.receiveBlockF (c : Crypto) : Nat → ClientState → Block → Option Block × ClientState
  | 0, st, _ => (none, st)
  | fuel + 1, st, block =>
    if (mapGet st.blocks (block.id c)).isSome then (none, st)
    else if ¬ block.hasValidProof c then (none, st)
    else
      match mapGet st.blocks block.prevBlockHash with
      | none =>
        let stuckBlocks := (mapGet st.pendingBlocks block.prevBlockHash).getD []
        (none, { st with
          pendingBlocks := mapSet st.pendingBlocks block.prevBlockHash (stuckBlocks ++ [block]) })
      | some prevBlock =>
        let r := block.rerun c prevBlock
        if r.1 then
          let block' := r.2
          let st1 := { st with blocks := mapSet st.blocks (block'.id c) block' }
          let st2 :=
            if st1.lastBlock.chainLength < block'.chainLength then
              Client.setLastConfirmed { st1 with lastBlock := block' }
            else st1
          let unstuckBlocks := (mapGet st2.pendingBlocks (block'.id c)).getD []
          let st3 := { st2 with pendingBlocks := mapRemove st2.pendingBlocks (block'.id c) }
          (some block',
           unstuckBlocks.foldl (fun s b => (Client.receiveBlockF c fuel s b).2) st3)
        else (none, st)

/-- miner.ts `NUM_ROUNDS_MINING`. -/
def NUM_ROUNDS_MINING : Nat := 2000

/-- miner.ts state: a client plus the candidate block and the mining
batch size. -/
structure MinerState where
  client : ClientState
  miningRounds : Nat
  currentBlock : Block
deriving DecidableEq, Repr

/-- miner.ts `startNewSearch`: a fresh candidate block atop `lastBlock`
(default target and coinbase reward) with the proof search restarted at
0.  `timestamp` stands for the ambient `Date.now()`. -/
def Miner.startNewSearch (c : Crypto) (ms : MinerState) (timestamp : Nat) : MinerState :=
  { ms with currentBlock :=
      { Block.make c ms.client.address (some ms.client.lastBlock)
          HIT_POW_TARGET COINBASE_AMT_ALLOWED timestamp with proof := some 0 } }

/-- miner.ts `receiveBlock` override: run the base `receiveBlock`; when it
accepted a block of strictly longer chain than the current candidate,
start a new search atop the (updated) `lastBlock`.  Note the declared
return type in the source is `null`: the override returns null on every
path, including acceptance. -/
def Miner.receiveBlock (c : Crypto) (fuel : Nat) (ms : MinerState) (block : Block)
    (timestamp : Nat) : Option Block × MinerState :=
  let r := Client.receiveBlockF c fuel ms.client block
  match r.1 with
  | none => (none, { ms with client := r.2 })
  | some b =>
    let ms' := { ms with client := r.2 }
    if ms'.currentBlock.chainLength < b.chainLength then
      (none, Miner.startNewSearch c ms' timestamp)
    else (none, ms')

/-- miner.ts `addTransaction`: delegate to the current block. -/
def Miner.addTransaction (c : Crypto) (ms : MinerState) (tx : Transaction) : Bool × MinerState :=
  let r := ms.currentBlock.addTransaction c tx
  (r.1, { ms with currentBlock := r.2 })

/-!
Reference-semantics model for the frame claim about `rerun`.  In JS the
`balances` and `nextNonce` fields hold references to mutable `Map`
objects.  To be able to state that `B.rerun(P)` never mutates (and never
aliases) the parent's maps, the maps live in an explicit store of cells
addressed by allocation index, and a block holds cell indices. -/

/-- The mutable-`Map` store: a bump allocator over balance cells and
next-nonce cells. -/
structure Store where
  nextId : Nat
  balCells : List (Nat × List (String × Int))
  nonceCells : List (Nat × List (String × Nat))
deriving DecidableEq, Repr

def Store.readBal (st : Store) (i : Nat) : List (String × Int) :=
  (mapGet st.balCells i).getD []

def Store.readNonce (st : Store) (i : Nat) : List (String × Nat) :=
  (mapGet st.nonceCells i).getD []

def Store.writeBal (st : Store) (i : Nat) (m : List (String × Int)) : Store :=
  { st with balCells := mapSet st.balCells i m }

def Store.writeNonce (st : Store) (i : Nat) (m : List (String × Nat)) : Store :=
  { st with nonceCells := mapSet st.nonceCells i m }

/-- `new Map(contents)`: allocate a fresh cell holding a copy. -/
def Store.allocBal (st : Store) (m : List (String × Int)) : Store × Nat :=
  ({ st with nextId := st.nextId + 1, balCells := mapSet st.balCells st.nextId m }, st.nextId)

def Store.allocNonce (st : Store) (m : List (String × Nat)) : Store × Nat :=
  ({ st with nextId := st.nextId + 1, nonceCells := mapSet st.nonceCells st.nextId m }, st.nextId)

/-- A block under reference semantics: only the fields `rerun` touches,
with the two derived maps held by reference. -/
structure BlockRef where
  rewardAddr : String
  coinbaseReward : Int
  transactions : List (String × Transaction)
  balId : Nat
  nonceId : Nat
deriving DecidableEq, Repr

def BlockRef.totalRewards (b : BlockRef) : Int :=
  b.transactions.foldl (fun reward kv => reward + kv.2.fee) b.coinbaseReward

/-- block.ts `addTransaction` under reference semantics: identical checks
and updates, but reading and writing `this.balances` / `this.nextNonce`
through the block's cell indices (the output-credit loop reads the live
map, which is the single cell being written). -/
def BlockRef.addTransaction (c : Crypto) (st : Store) (b : BlockRef) (tx : Transaction) :
    Bool × Store × BlockRef :=
  -- the source's local bindings for `this.balances`, `this.nextNonce` and
  -- `nonce` are inlined at their use sites
  if (mapGet b.transactions (tx.id c)).isSome then (false, st, b)
  else if tx.sig.isNone then (false, st, b)
  else if ¬ tx.validSignature c then (false, st, b)
  else if ¬ tx.sufficientFunds (st.readBal b.balId) then (false, st, b)
  else if tx.nonce < (mapGet (st.readNonce b.nonceId) tx.fromAddr).getD 0 then (false, st, b)
  else if (mapGet (st.readNonce b.nonceId) tx.fromAddr).getD 0 < tx.nonce then (false, st, b)
  else
    (true,
     (st.writeNonce b.nonceId
        (mapSet (st.readNonce b.nonceId) tx.fromAddr
          ((mapGet (st.readNonce b.nonceId) tx.fromAddr).getD 0 + 1))).writeBal b.balId
       (applyOutputs
         (mapSet (st.readBal b.balId) tx.fromAddr
           ((mapGet (st.readBal b.balId) tx.fromAddr).getD 0 - tx.totalOutput))
         tx.outputs),
     { b with transactions := mapSet b.transactions (tx.id c) tx })

def BlockRef.rerunLoop (c : Crypto) : Store → BlockRef → List Transaction → Bool × Store × BlockRef
  | st, b, [] => (true, st, b)
  | st, b, tx :: rest =>
    let r := BlockRef.addTransaction c st b tx
    if r.1 then BlockRef.rerunLoop c r.2.1 r.2.2 rest else (false, r.2.1, r.2.2)

/-- block.ts `rerun` under reference semantics: `this.balances = new
Map(prevBlock.balances)` and `this.nextNonce = new Map(prevBlock.nextNonce)`
allocate fresh cells holding copies; then the parent's reward address is
credited in the fresh balance cell and the transactions are re-admitted. -/
def BlockRef.rerun (c : Crypto) (st : Store) (b prevBlock : BlockRef) :
    Bool × Store × BlockRef :=
  let a1 := st.allocBal (st.readBal prevBlock.balId)
  let a2 := a1.1.allocNonce (a1.1.readNonce prevBlock.nonceId)
  let st2 := a2.1
  let b0 := { b with balId := a1.2, nonceId := a2.2 }
  let balances := st2.readBal b0.balId
  let st3 := st2.writeBal b0.balId
    (mapSet balances prevBlock.rewardAddr
      ((mapGet balances prevBlock.rewardAddr).getD 0 + prevBlock.totalRewards))
  BlockRef.rerunLoop c st3 { b0 with transactions := [] }
    (b0.transactions.map (fun kv => kv.2))

/-!  Theorems and witnesses. -/

/-- A concrete, fully executable choice of primitives used by witnesses:
hashing is the identity (so distinct preimages have distinct digests),
every signature verifies, and an address is its own public key. -/
def cId : Crypto :=
  { hash := fun s => s
    sign := fun _ _ => "sg"
    verify := fun _ _ _ => true
    calcAddress := fun k => k }

/-- C7: a transaction's id is the hash of `"TX"` followed by the
canonical JSON of exactly `(from, nonce, pubKey, outputs, fee)`; signing
(which only sets `sig`) leaves the id unchanged, and two transactions
agreeing on those five fields (hence differing at most in `sig`) have
equal ids. -/
theorem transaction_id_ignores_sig (c : Crypto) (t1 t2 : Transaction) (privKey : String)
    (hfrom : t1.fromAddr = t2.fromAddr) (hnonce : t1.nonce = t2.nonce)
    (hpub : t1.pubKey = t2.pubKey) (houts : t1.outputs = t2.outputs) (hfee : t1.fee = t2.fee) :
    Transaction.id c t1 = c.hash ("TX" ++ String.mk t1.contentChars) ∧
    Transaction.id c (t1.signTx c privKey) = Transaction.id c t1 ∧
    Transaction.id c t1 = Transaction.id c t2 := by
  refine ⟨rfl, rfl, ?_⟩
  unfold Transaction.id Transaction.contentChars
  rw [hfrom, hnonce, hpub, houts, hfee]

def w7t1 : Transaction :=
  { fromAddr := "a", nonce := 0, pubKey := "a", sig := none, fee := 1,
    outputs := [{ amount := 2, address := "b" }] }

def w7t2 : Transaction := { w7t1 with sig := some "other" }

/-- Witness for C7 at a concrete pair of transactions differing only in
`sig`. -/
theorem transaction_id_ignores_sig_witness :
    Transaction.id cId w7t1 = cId.hash ("TX" ++ String.mk w7t1.contentChars) ∧
    Transaction.id cId (w7t1.signTx cId "priv") = Transaction.id cId w7t1 ∧
    Transaction.id cId w7t1 = Transaction.id cId w7t2 :=
  transaction_id_ignores_sig cId w7t1 w7t2 "priv" rfl rfl rfl rfl rfl

/-- C8: `hasValidProof` holds exactly when the hash of the serialized
block, read as an unsigned big integer, is strictly less than the target;
in particular a hash value equal to the target is rejected. -/
theorem hasValidProof_strict (c : Crypto) (b : Block) :
    (b.hasValidProof c = true ↔ hexStrToNat (c.hash b.serialize) < b.target) ∧
    (hexStrToNat (c.hash b.serialize) = b.target → b.hasValidProof c = false) := by
  constructor
  · simp [Block.hasValidProof]
  · intro h
    simp [Block.hasValidProof, h]

def w8crypto : Crypto := { cId with hash := fun _ => "10" }

def w8block : Block :=
  { chainLength := 0, prevBlockHash := "", proof := none, timestamp := 0,
    target := 16, coinbaseReward := 25, rewardAddr := "", transactions := [],
    balances := [], nextNonce := [] }

/-- Witness for C8: a concrete block whose hash value equals its target is
rejected. -/
theorem hasValidProof_strict_witness : w8block.hasValidProof w8crypto = false :=
  (hasValidProof_strict w8crypto w8block).2 (by decide)

/-- Setting `sig` does not change a transaction's id (the id's preimage
reads only the other five fields). -/
theorem id_set_sig (c : Crypto) (t : Transaction) (s : Option String) :
    Transaction.id c { t with sig := s } = Transaction.id c t := rfl

theorem foldl_add_amount (l : List Output) (a : Int) :
    l.foldl (fun acc o => acc + o.amount) a = a + (l.map Output.amount).sum := by
  induction l generalizing a with
  | nil => simp
  | cons o rest ih =>
    simp only [List.foldl_cons, List.map_cons, List.sum_cons, ih]
    ring

/-- C6: `postTransaction` fails with the insufficient-funds error exactly
when the fee plus the sum of the output amounts exceeds `availableGold`
(which is `confirmedBalance − pendingSpent`); the error result carries no
state change and no broadcast.  Otherwise it returns the bumped-nonce
state together with a POST_TRANSACTION broadcast of a transaction built
from the client's address and current nonce and signed over its id. -/
theorem postTransaction_spec (c : Crypto) (st : ClientState) (outputs : List Output) (fee : Int) :
    Client.availableGold st = Client.confirmedBalance st - st.pendingSpent ∧
    ((outputs.map Output.amount).sum + fee > Client.availableGold st →
      Client.postTransaction c st outputs fee = Except.error "insufficient funds") ∧
    ((outputs.map Output.amount).sum + fee ≤ Client.availableGold st →
      ∃ tx : Transaction,
        Client.postTransaction c st outputs fee =
          Except.ok ({ st with nonce := st.nonce + 1 }, ("POST_TRANSACTION", tx)) ∧
        tx.fromAddr = st.address ∧ tx.nonce = st.nonce ∧ tx.pubKey = st.pubKey ∧
        tx.outputs = outputs ∧ tx.fee = fee ∧
        tx.sig = some (c.sign st.privKey (Transaction.id c tx))) := by
  refine ⟨rfl, ?_, ?_⟩
  · intro h
    have hlt : Client.availableGold st < outputs.foldl (fun acc o => acc + o.amount) 0 + fee := by
      rw [foldl_add_amount]
      omega
    simp [Client.postTransaction, hlt]
  · intro h
    have hlt : ¬ Client.availableGold st < outputs.foldl (fun acc o => acc + o.amount) 0 + fee := by
      rw [foldl_add_amount]
      omega
    refine ⟨Transaction.signTx c st.privKey
      { fromAddr := st.address, nonce := st.nonce, pubKey := st.pubKey,
        sig := none, fee := fee, outputs := outputs }, ?_, rfl, rfl, rfl, rfl, rfl, rfl⟩
    simp [Client.postTransaction, hlt]

def w6genesis : Block :=
  { chainLength := 0, prevBlockHash := "", proof := none, timestamp := 0,
    target := 16, coinbaseReward := 25, rewardAddr := "", transactions := [],
    balances := [("a", 100)], nextNonce := [] }

def w6state : ClientState := Client.init cId "a" "k" w6genesis

/-- Witness for C6 at a concrete affordable payment. -/
theorem postTransaction_spec_witness :
    ∃ tx : Transaction,
      Client.postTransaction cId w6state [{ amount := 1, address := "b" }] 1 =
        Except.ok ({ w6state with nonce := w6state.nonce + 1 }, ("POST_TRANSACTION", tx)) ∧
      tx.fromAddr = w6state.address ∧ tx.nonce = w6state.nonce ∧ tx.pubKey = w6state.pubKey ∧
      tx.outputs = [{ amount := 1, address := "b" }] ∧ tx.fee = 1 ∧
      tx.sig = some (cId.sign w6state.privKey (Transaction.id cId tx)) :=
  (postTransaction_spec cId w6state [{ amount := 1, address := "b" }] 1).2.2 (by decide)

/-- Success case of `addTransaction`: the transaction's nonce equalled the
sender's expected next nonce, and the expected nonce was bumped by one. -/
theorem addTransaction_true (c : Crypto) (b : Block) (tx : Transaction)
    (h : (b.addTransaction c tx).1 = true) :
    tx.nonce = (mapGet b.nextNonce tx.fromAddr).getD 0 ∧
    (b.addTransaction c tx).2.nextNonce = mapSet b.nextNonce tx.fromAddr (tx.nonce + 1) := by
  unfold Block.addTransaction at h ⊢
  split_ifs at h ⊢ with h1 h2 h3 h4 h5 h6
  simp_all
  have he : tx.nonce = (mapGet b.nextNonce tx.fromAddr).getD 0 := by omega
  rw [he]
  exact ⟨rfl, rfl⟩

/-- `addTransaction` never lowers a sender's expected next nonce. -/
theorem nonceGe_addTransaction (c : Crypto) (b : Block) (tx : Transaction) (s : String) (k : Nat)
    (h : k ≤ (mapGet b.nextNonce s).getD 0) :
    k ≤ (mapGet (b.addTransaction c tx).2.nextNonce s).getD 0 := by
  unfold Block.addTransaction
  split_ifs with h1 h2 h3 h4 h5 h6 <;> simp_all
  by_cases hs : tx.fromAddr = s
  · subst hs
    rw [mapGet_mapSet_self]
    simp only [Option.getD_some]
    omega
  · rw [mapGet_mapSet_ne _ _ _ _ hs]
    exact h

/-- One evolution step from a block: either an admission attempt on the
block itself, or the construction of a child block atop it. -/
inductive BlockStep (c : Crypto) : Block → Block → Prop
  | add (b : Block) (tx : Transaction) : BlockStep c b (b.addTransaction c tx).2
  | child (b : Block) (ra : String) (tgt : Nat) (cr : Int) (ts : Nat) :
      BlockStep c b (Block.make c ra (some b) tgt cr ts)

theorem nonceGe_step (c : Crypto) (b b' : Block) (s : String) (k : Nat)
    (hstep : BlockStep c b b') (h : k ≤ (mapGet b.nextNonce s).getD 0) :
    k ≤ (mapGet b'.nextNonce s).getD 0 := by
  cases hstep with
  | add tx => exact nonceGe_addTransaction c b tx s k h
  | child ra tgt cr ts => exact h

theorem nonceGe_reach (c : Crypto) (b b' : Block) (s : String) (k : Nat)
    (hreach : Relation.ReflTransGen (BlockStep c) b b')
    (h : k ≤ (mapGet b.nextNonce s).getD 0) :
    k ≤ (mapGet b'.nextNonce s).getD 0 := by
  induction hreach with
  | refl => exact h
  | tail _ hstep ih => exact nonceGe_step c _ _ s k hstep ih

/-- C3: admitting a signed transaction with nonce `n` from sender `s`
succeeds exactly once along any chain built from a given state.  On
success the nonce matched `nextNonce.get(s) ?? 0` and the expected nonce
became `n + 1`; in the resulting block and every descendant reached by
further admissions and child construction, any transaction from `s` with
the same nonce `n` is rejected. -/
theorem nonce_replay_prevention (c : Crypto) (b : Block) (tx tx' : Transaction) (s : String)
    (n : Nat) (d : Block)
    (hfrom : tx.fromAddr = s) (hn : tx.nonce = n)
    (hsucc : (b.addTransaction c tx).1 = true)
    (hreach : Relation.ReflTransGen (BlockStep c) (b.addTransaction c tx).2 d)
    (hfrom' : tx'.fromAddr = s) (hn' : tx'.nonce = n) :
    tx.nonce = (mapGet b.nextNonce s).getD 0 ∧
    mapGet (b.addTransaction c tx).2.nextNonce s = some (n + 1) ∧
    (d.addTransaction c tx').1 = false := by
  obtain ⟨hexp, hset⟩ := addTransaction_true c b tx hsucc
  subst hfrom
  refine ⟨hexp, ?_, ?_⟩
  · rw [hset, hn, mapGet_mapSet_self]
  · have hge : n + 1 ≤ (mapGet d.nextNonce tx.fromAddr).getD 0 := by
      refine nonceGe_reach c _ d tx.fromAddr (n + 1) hreach ?_
      rw [hset, hn, mapGet_mapSet_self]
      simp
    by_cases hf : (d.addTransaction c tx').1 = true
    · obtain ⟨hexp', _⟩ := addTransaction_true c d tx' hf
      rw [hfrom'] at hexp'
      omega
    · exact Bool.not_eq_true _ ▸ eq_false_of_ne_true hf

def w3b : Block :=
  { chainLength := 0, prevBlockHash := "", proof := none, timestamp := 0,
    target := 16, coinbaseReward := 25, rewardAddr := "g",
    transactions := [], balances := [("a", 100)], nextNonce := [] }

def w3tx : Transaction :=
  { fromAddr := "a", nonce := 0, pubKey := "a", sig := some "s", fee := 1,
    outputs := [{ amount := 2, address := "b" }] }

/-- Witness for C3: a concrete admission that succeeds, followed by a
rejection of the same (sender, nonce) in a child block. -/
theorem nonce_replay_prevention_witness :
    w3tx.nonce = (mapGet w3b.nextNonce "a").getD 0 ∧
    mapGet (w3b.addTransaction cId w3tx).2.nextNonce "a" = some (0 + 1) ∧
    ((Block.make cId "m" (some (w3b.addTransaction cId w3tx).2) 5 25 9).addTransaction
      cId w3tx).1 = false :=
  nonce_replay_prevention cId w3b w3tx w3tx "a" 0
    (Block.make cId "m" (some (w3b.addTransaction cId w3tx).2) 5 25 9) rfl rfl (by decide)
    (Relation.ReflTransGen.single (BlockStep.child (w3b.addTransaction cId w3tx).2 "m" 5 25 9))
    rfl rfl

theorem addTransactionRef_ids (c : Crypto) (st : Store) (b : BlockRef) (tx : Transaction) :
    (BlockRef.addTransaction c st b tx).2.2.balId = b.balId ∧
    (BlockRef.addTransaction c st b tx).2.2.nonceId = b.nonceId := by
  unfold BlockRef.addTransaction
  split_ifs <;> exact ⟨rfl, rfl⟩

/-- `addTransaction` only ever writes the cells of the block it runs on. -/
theorem addTransactionRef_frame (c : Crypto) (st : Store) (b : BlockRef) (tx : Transaction)
    (i j : Nat) (hi : i ≠ b.balId) (hj : j ≠ b.nonceId) :
    mapGet (BlockRef.addTransaction c st b tx).2.1.balCells i = mapGet st.balCells i ∧
    mapGet (BlockRef.addTransaction c st b tx).2.1.nonceCells j = mapGet st.nonceCells j := by
  unfold BlockRef.addTransaction
  split_ifs <;> try exact ⟨rfl, rfl⟩
  constructor
  · simp only [Store.writeBal, Store.writeNonce]
    exact mapGet_mapSet_ne _ _ _ _ (fun h => hi h.symm)
  · simp only [Store.writeBal, Store.writeNonce]
    exact mapGet_mapSet_ne _ _ _ _ (fun h => hj h.symm)

theorem rerunLoopRef_ids (c : Crypto) (txs : List Transaction) (st : Store) (b : BlockRef) :
    (BlockRef.rerunLoop c st b txs).2.2.balId = b.balId ∧
    (BlockRef.rerunLoop c st b txs).2.2.nonceId = b.nonceId := by
  induction txs generalizing st b with
  | nil => exact ⟨rfl, rfl⟩
  | cons tx rest ih =>
    obtain ⟨hids1, hids2⟩ := addTransactionRef_ids c st b tx
    simp only [BlockRef.rerunLoop]
    by_cases hr : (BlockRef.addTransaction c st b tx).1 = true
    · obtain ⟨ih1, ih2⟩ := ih (BlockRef.addTransaction c st b tx).2.1
        (BlockRef.addTransaction c st b tx).2.2
      rw [if_pos hr]
      exact ⟨ih1.trans hids1, ih2.trans hids2⟩
    · rw [if_neg hr]
      exact ⟨hids1, hids2⟩

theorem rerunLoopRef_frame (c : Crypto) (txs : List Transaction) (st : Store) (b : BlockRef)
    (i j : Nat) (hi : i ≠ b.balId) (hj : j ≠ b.nonceId) :
    mapGet (BlockRef.rerunLoop c st b txs).2.1.balCells i = mapGet st.balCells i ∧
    mapGet (BlockRef.rerunLoop c st b txs).2.1.nonceCells j = mapGet st.nonceCells j := by
  induction txs generalizing st b with
  | nil => exact ⟨rfl, rfl⟩
  | cons tx rest ih =>
    obtain ⟨hids1, hids2⟩ := addTransactionRef_ids c st b tx
    obtain ⟨hf1, hf2⟩ := addTransactionRef_frame c st b tx i j hi hj
    simp only [BlockRef.rerunLoop]
    by_cases hr : (BlockRef.addTransaction c st b tx).1 = true
    · obtain ⟨ih1, ih2⟩ := ih (BlockRef.addTransaction c st b tx).2.1
        (BlockRef.addTransaction c st b tx).2.2 (hids1 ▸ hi) (hids2 ▸ hj)
      rw [if_pos hr]
      exact ⟨ih1.trans hf1, ih2.trans hf2⟩
    · rw [if_neg hr]
      exact ⟨hf1, hf2⟩

/-- C9: `rerun` leaves the parent's state entirely unchanged.  Under
reference semantics, `B.rerun(P)` copies `P.balances` and `P.nextNonce`
into freshly allocated cells — it never writes the parent's cells, so the
parent's maps read back exactly as before the call, and the rerun block's
maps do not alias the parent's.  The hypotheses say the parent's cells
were allocated (their indices are below the allocator's next index). -/
theorem rerun_preserves_parent (c : Crypto) (st : Store) (b p : BlockRef)
    (hb : p.balId < st.nextId) (hn : p.nonceId < st.nextId) :
    mapGet (BlockRef.rerun c st b p).2.1.balCells p.balId = mapGet st.balCells p.balId ∧
    mapGet (BlockRef.rerun c st b p).2.1.nonceCells p.nonceId = mapGet st.nonceCells p.nonceId ∧
    (BlockRef.rerun c st b p).2.2.balId ≠ p.balId ∧
    (BlockRef.rerun c st b p).2.2.nonceId ≠ p.nonceId := by
  have hbne : p.balId ≠ st.nextId := Nat.ne_of_lt hb
  have hnne : p.nonceId ≠ st.nextId + 1 := by omega
  unfold BlockRef.rerun
  simp only [Store.allocBal, Store.allocNonce, Store.writeBal, Store.readBal, Store.readNonce]
  obtain ⟨hl1, hl2⟩ := rerunLoopRef_frame c
    (List.map (fun kv => kv.2) b.transactions)
    _ { b with transactions := [], balId := st.nextId, nonceId := st.nextId + 1 }
    p.balId p.nonceId hbne hnne
  refine ⟨?_, ?_, ?_, ?_⟩
  · rw [hl1]
    simp only []
    rw [mapGet_mapSet_ne _ _ _ _ (fun h => hbne h.symm),
        mapGet_mapSet_ne _ _ _ _ (fun h => hbne h.symm)]
  · rw [hl2]
    simp only []
    rw [mapGet_mapSet_ne _ _ _ _ (fun h => hnne h.symm)]
  · obtain ⟨hid, _⟩ := rerunLoopRef_ids c (List.map (fun kv => kv.2) b.transactions) _
      { b with transactions := [], balId := st.nextId, nonceId := st.nextId + 1 }
    rw [hid]
    exact fun h => hbne h.symm
  · obtain ⟨_, hid⟩ := rerunLoopRef_ids c (List.map (fun kv => kv.2) b.transactions) _
      { b with transactions := [], balId := st.nextId, nonceId := st.nextId + 1 }
    rw [hid]
    exact fun h => hnne h.symm

def w9store : Store :=
  { nextId := 2, balCells := [(0, [("a", 50)])], nonceCells := [(1, [("a", 3)])] }

def w9parent : BlockRef :=
  { rewardAddr := "g", coinbaseReward := 25, transactions := [], balId := 0, nonceId := 1 }

def w9block : BlockRef :=
  { rewardAddr := "m", coinbaseReward := 25, transactions := [("tid", w3tx)],
    balId := 0, nonceId := 1 }

/-- Witness for C9 at a concrete store: a rerun that re-admits one
transaction leaves the parent's cells untouched. -/
theorem rerun_preserves_parent_witness :
    mapGet (BlockRef.rerun cId w9store w9block w9parent).2.1.balCells w9parent.balId =
      mapGet w9store.balCells w9parent.balId ∧
    mapGet (BlockRef.rerun cId w9store w9block w9parent).2.1.nonceCells w9parent.nonceId =
      mapGet w9store.nonceCells w9parent.nonceId ∧
    (BlockRef.rerun cId w9store w9block w9parent).2.2.balId ≠ w9parent.balId ∧
    (BlockRef.rerun cId w9store w9block w9parent).2.2.nonceId ≠ w9parent.nonceId :=
  rerun_preserves_parent cId w9store w9block w9parent (by decide) (by decide)

/-- Sequential admission of a list of transactions via `addTransaction`. -/
def addTxs (c : Crypto) : Block → List Transaction → Block
  | b, [] => b
  | b, tx :: rest => addTxs c (b.addTransaction c tx).2 rest

/-- An insertion order is admissible when every admission succeeds. -/
def admissibleAll (c : Crypto) : Block → List Transaction → Bool
  | _, [] => true
  | b, tx :: rest => (b.addTransaction c tx).1 && admissibleAll c (b.addTransaction c tx).2 rest

/-- `addTransaction` touches only `transactions`, `balances` and
`nextNonce`. -/
theorem addTransaction_frame (c : Crypto) (b : Block) (tx : Transaction) :
    (b.addTransaction c tx).2.chainLength = b.chainLength ∧
    (b.addTransaction c tx).2.prevBlockHash = b.prevBlockHash ∧
    (b.addTransaction c tx).2.proof = b.proof ∧
    (b.addTransaction c tx).2.timestamp = b.timestamp ∧
    (b.addTransaction c tx).2.target = b.target ∧
    (b.addTransaction c tx).2.coinbaseReward = b.coinbaseReward ∧
    (b.addTransaction c tx).2.rewardAddr = b.rewardAddr := by
  unfold Block.addTransaction
  split_ifs <;> exact ⟨rfl, rfl, rfl, rfl, rfl, rfl, rfl⟩

theorem addTxs_frame (c : Crypto) (txs : List Transaction) (b : Block) :
    (addTxs c b txs).chainLength = b.chainLength ∧
    (addTxs c b txs).prevBlockHash = b.prevBlockHash ∧
    (addTxs c b txs).proof = b.proof ∧
    (addTxs c b txs).timestamp = b.timestamp ∧
    (addTxs c b txs).target = b.target ∧
    (addTxs c b txs).coinbaseReward = b.coinbaseReward ∧
    (addTxs c b txs).rewardAddr = b.rewardAddr := by
  induction txs generalizing b with
  | nil => exact ⟨rfl, rfl, rfl, rfl, rfl, rfl, rfl⟩
  | cons tx rest ih =>
    obtain ⟨f1, f2, f3, f4, f5, f6, f7⟩ := addTransaction_frame c b tx
    obtain ⟨i1, i2, i3, i4, i5, i6, i7⟩ := ih (b.addTransaction c tx).2
    exact ⟨i1.trans f1, i2.trans f2, i3.trans f3, i4.trans f4, i5.trans f5,
      i6.trans f6, i7.trans f7⟩

/-- A successful admission appends the `[id, tx]` entry (the duplicate
check guarantees the id was absent, so `Map.set` appends). -/
theorem addTransaction_true_transactions (c : Crypto) (b : Block) (tx : Transaction)
    (h : (b.addTransaction c tx).1 = true) :
    mapGet b.transactions (tx.id c) = none ∧
    (b.addTransaction c tx).2.transactions = b.transactions ++ [(tx.id c, tx)] := by
  unfold Block.addTransaction at h ⊢
  split_ifs at h ⊢ with h1 h2 h3 h4 h5 h6
  have hn : mapGet b.transactions (tx.id c) = none := by
    cases hg : mapGet b.transactions (tx.id c) with
    | none => rfl
    | some v => rw [hg] at h1; simp at h1
  exact ⟨hn, by simp [mapSet_of_get_none _ _ _ hn]⟩

theorem rerunLoop_eq_addTxs (c : Crypto) (txs : List Transaction) (b : Block)
    (h : admissibleAll c b txs = true) :
    Block.rerunLoop c b txs = (true, addTxs c b txs) := by
  induction txs generalizing b with
  | nil => rfl
  | cons tx rest ih =>
    simp only [admissibleAll, Bool.and_eq_true] at h
    simp only [Block.rerunLoop, addTxs, if_pos h.1]
    exact ih _ h.2

theorem addTxs_transactions (c : Crypto) (txs : List Transaction) (b : Block)
    (h : admissibleAll c b txs = true) :
    (addTxs c b txs).transactions = b.transactions ++ txs.map (fun tx => (tx.id c, tx)) := by
  induction txs generalizing b with
  | nil => simp [addTxs]
  | cons tx rest ih =>
    simp only [admissibleAll, Bool.and_eq_true] at h
    obtain ⟨_, htr⟩ := addTransaction_true_transactions c b tx h.1
    simp only [addTxs, List.map_cons]
    rw [ih _ h.2, htr]
    simp

theorem blockExt (x y : Block)
    (h1 : x.chainLength = y.chainLength) (h2 : x.prevBlockHash = y.prevBlockHash)
    (h3 : x.proof = y.proof) (h4 : x.timestamp = y.timestamp) (h5 : x.target = y.target)
    (h6 : x.coinbaseReward = y.coinbaseReward) (h7 : x.rewardAddr = y.rewardAddr)
    (h8 : x.transactions = y.transactions) (h9 : x.balances = y.balances)
    (h10 : x.nextNonce = y.nextNonce) : x = y := by
  cases x; cases y; simp_all

/-- Unfolding of `rerun` to its reset state and re-admission loop. -/
theorem rerun_eq (c : Crypto) (b P : Block) :
    Block.rerun c b P =
      Block.rerunLoop c
        { b with
            transactions := [],
            balances := mapSet P.balances P.rewardAddr
              ((mapGet P.balances P.rewardAddr).getD 0 + P.totalRewards),
            nextNonce := P.nextNonce }
        (b.transactions.map (fun kv => kv.2)) := rfl

/-- C1 (amended): for a parent with a non-empty reward address, `rerun`
restores exactly the state produced by fresh construction plus admission.
For any admissible insertion order `txs` admitted atop parent `P` via
`addTransaction` — and regardless of what is currently stored in the
block's derived maps — `rerun` succeeds and returns precisely the block
that construction followed by the same admissions produces.  (When
`P.rewardAddr` is the empty string the constructor skips the reward
credit but `rerun` applies it unconditionally, so the balances differ;
see the counterexample.) -/
theorem rerun_matches_construction (c : Crypto) (ra : String) (P : Block) (tgt : Nat)
    (cr : Int) (ts : Nat) (txs : List Transaction)
    (junkBal : List (String × Int)) (junkNonce : List (String × Nat))
    (hP : P.rewardAddr ≠ "")
    (hadm : admissibleAll c (Block.make c ra (some P) tgt cr ts) txs = true) :
    Block.rerun c
      { addTxs c (Block.make c ra (some P) tgt cr ts) txs with
          balances := junkBal, nextNonce := junkNonce } P =
    (true, addTxs c (Block.make c ra (some P) tgt cr ts) txs) := by
  have key := rerunLoop_eq_addTxs c txs (Block.make c ra (some P) tgt cr ts) hadm
  rw [rerun_eq, ← key]
  congr 1
  · apply blockExt
    · exact (addTxs_frame c txs _).1
    · exact (addTxs_frame c txs _).2.1
    · exact (addTxs_frame c txs _).2.2.1
    · exact (addTxs_frame c txs _).2.2.2.1
    · exact (addTxs_frame c txs _).2.2.2.2.1
    · exact (addTxs_frame c txs _).2.2.2.2.2.1
    · exact (addTxs_frame c txs _).2.2.2.2.2.2
    · rfl
    · show mapSet P.balances P.rewardAddr
        ((mapGet P.balances P.rewardAddr).getD 0 + P.totalRewards) = _
      simp [Block.make, hP]
    · rfl
  · show (addTxs c (Block.make c ra (some P) tgt cr ts) txs).transactions.map
      (fun kv => kv.2) = txs
    rw [addTxs_transactions c txs _ hadm]
    simp only [Block.make, List.nil_append, List.map_map]
    exact List.map_id txs

def w1parent : Block :=
  { chainLength := 0, prevBlockHash := "", proof := none, timestamp := 0,
    target := 16, coinbaseReward := 25, rewardAddr := "", transactions := [],
    balances := [("a", 50)], nextNonce := [] }

/-- Counterexample to C1 as stated: atop a parent whose `rewardAddr` is
the empty string (as `makeGenesis` produces), the empty insertion order is
admissible and `rerun` succeeds, yet the rerun balances differ from the
freshly constructed block's balances — `rerun` unconditionally credits
`P.totalRewards()` to the empty address while the constructor's
truthiness guard skips it. -/
theorem rerun_matches_construction_counterexample :
    admissibleAll cId (Block.make cId "m" (some w1parent) 5 25 7) [] = true ∧
    (Block.rerun cId (Block.make cId "m" (some w1parent) 5 25 7) w1parent).1 = true ∧
    (Block.rerun cId (Block.make cId "m" (some w1parent) 5 25 7) w1parent).2.balances ≠
      (Block.make cId "m" (some w1parent) 5 25 7).balances := by
  decide

/-- Witness for the amended C1 at a concrete parent (non-empty reward
address) and a one-transaction admissible order, with the derived maps
wiped before the rerun. -/
theorem rerun_matches_construction_witness :
    Block.rerun cId
      { addTxs cId (Block.make cId "m" (some w3b) 5 25 7) [w3tx] with
          balances := [], nextNonce := [] } w3b =
    (true, addTxs cId (Block.make cId "m" (some w3b) 5 25 7) [w3tx]) :=
  rerun_matches_construction cId "m" w3b 5 25 7 [w3tx] [] [] (by decide) (by decide)

theorem receiveBlockF_pendingSpent (c : Crypto) :
    ∀ (fuel : Nat) (st : ClientState) (b : Block),
      (Client.receiveBlockF c fuel st b).2.pendingSpent = st.pendingSpent := by
  intro fuel
  induction fuel with
  | zero => intro st b; rfl
  | succ fuel ih =>
    intro st b
    have hfold : ∀ (l : List Block) (s : ClientState),
        (l.foldl (fun s b => (Client.receiveBlockF c fuel s b).2) s).pendingSpent =
          s.pendingSpent := by
      intro l
      induction l with
      | nil => intro s; rfl
      | cons x xs ihl => intro s; rw [List.foldl_cons, ihl, ih]
    simp only [Client.receiveBlockF]
    split
    · rfl
    · split
      · rfl
      · split
        · rfl
        · split
          · rw [hfold]
            show (if _ then Client.setLastConfirmed _ else _).pendingSpent = _
            split <;> rfl
          · rfl

/-- The state-changing operations of a client: receiving a block and
posting a transaction (a failed post changes nothing). -/
inductive ClientEvolve (c : Crypto) : ClientState → ClientState → Prop
  | receive (st : ClientState) (fuel : Nat) (block : Block) :
      ClientEvolve c st (Client.receiveBlockF c fuel st block).2
  | post (st : ClientState) (outputs : List Output) (fee : Int) (st' : ClientState)
      (rest : String × Transaction)
      (h : Client.postTransaction c st outputs fee = Except.ok (st', rest)) :
      ClientEvolve c st st'

/-- C10: `pendingSpent` is 0 at construction and no operation ever
modifies it, so `availableGold` always equals `confirmedBalance` in every
state a client can reach. -/
theorem pendingSpent_never_modified (c : Crypto) (pubKey privKey : String) (g : Block)
    (st : ClientState)
    (h : Relation.ReflTransGen (ClientEvolve c) (Client.init c pubKey privKey g) st) :
    st.pendingSpent = 0 ∧ Client.availableGold st = Client.confirmedBalance st := by
  have hps : st.pendingSpent = 0 := by
    induction h with
    | refl => rfl
    | tail hr hstep ih =>
      cases hstep with
      | receive fuel block => rw [receiveBlockF_pendingSpent]; exact ih
      | post outputs fee st' rest heq =>
        simp only [Client.postTransaction] at heq
        split_ifs at heq with hc
        simp only [Except.ok.injEq, Prod.mk.injEq] at heq
        rw [← heq.1]
        exact ih
  refine ⟨hps, ?_⟩
  unfold Client.availableGold
  rw [hps]
  ring

/-- Witness for C10 at the freshly initialized client. -/
theorem pendingSpent_never_modified_witness :
    (Client.init cId "a" "k" w6genesis).pendingSpent = 0 ∧
    Client.availableGold (Client.init cId "a" "k" w6genesis) =
      Client.confirmedBalance (Client.init cId "a" "k" w6genesis) :=
  pendingSpent_never_modified cId "a" "k" w6genesis _ Relation.ReflTransGen.refl

/-- C5 (amended): `Client.receiveBlock` returns the rerun block exactly
when the block is not already stored, has a valid proof, its parent is in
the store, and `rerun` succeeds — the four rejection cases (duplicate,
invalid proof, missing parent, failed rerun) are exactly the `null`
returns.  `Miner.receiveBlock`, however, performs the same base
acceptance but is declared `: null` in the source and returns null on
every path, including acceptance (see the counterexample). -/
theorem receiveBlock_return_value (c : Crypto) (fuel : Nat) (st : ClientState) (block : Block) :
    ((Client.receiveBlockF c (fuel + 1) st block).1 =
      (if mapGet st.blocks (block.id c) = none ∧ block.hasValidProof c = true then
        match mapGet st.blocks block.prevBlockHash with
        | none => none
        | some p => if (block.rerun c p).1 then some (block.rerun c p).2 else none
      else none)) ∧
    (∀ (ms : MinerState) (ts : Nat), (Miner.receiveBlock c fuel ms block ts).1 = none) := by
  constructor
  · simp only [Client.receiveBlockF]
    by_cases h1 : mapGet st.blocks (Block.id c block) = none
    · rw [if_neg (by simp [h1])]
      by_cases h2 : block.hasValidProof c = true
      · rw [if_neg (by simp [h2]), if_pos ⟨h1, h2⟩]
        cases hm : mapGet st.blocks block.prevBlockHash with
        | none => rfl
        | some p =>
          dsimp only
          by_cases h3 : (block.rerun c p).1 = true
          · rw [if_pos h3, if_pos h3]
          · rw [if_neg h3, if_neg h3]
      · rw [if_pos (by simp [h2]), if_neg (by simp [h2])]
    · rw [if_pos (by simp [Option.isSome_iff_ne_none, h1]),
          if_neg (by simp [h1])]
  · intro ms ts
    simp only [Miner.receiveBlock]
    cases hr : (Client.receiveBlockF c fuel ms.client block).1 with
    | none => rfl
    | some b =>
      simp only []
      split <;> rfl

def w5genesis : Block :=
  { chainLength := 0, prevBlockHash := "", proof := none, timestamp := 0,
    target := 16, coinbaseReward := 25, rewardAddr := "g", transactions := [],
    balances := [("a", 100)], nextNonce := [] }

def w5block0 : Block := Block.make cId "m" (some w5genesis) 0 25 7

/-- `serialize` omits `target`, so a target one above the block's own
hash value makes the proof valid by construction. -/
def w5block : Block := { w5block0 with target := hexStrToNat w5block0.serialize + 1 }

def w5miner : MinerState :=
  { client := Client.init cId "k" "pk" w5genesis
    miningRounds := 2000
    currentBlock := Block.make cId "k" (some w5genesis) HIT_POW_TARGET 25 0 }

set_option maxRecDepth 100000 in
/-- Counterexample to C5 as stated: a concrete miner receives a block
that is new, carries a valid proof, has its parent stored, and reruns
successfully — yet `Miner.receiveBlock` returns null. -/
theorem receiveBlock_return_value_counterexample :
    mapGet w5miner.client.blocks (Block.id cId w5block) = none ∧
    w5block.hasValidProof cId = true ∧
    mapGet w5miner.client.blocks w5block.prevBlockHash = some w5genesis ∧
    (w5block.rerun cId w5genesis).1 = true ∧
    (Miner.receiveBlock cId 1 w5miner w5block 9).1 = none := by
  decide

/-- A block store is chain-consistent when every stored non-genesis block
has its parent stored with a chain length one less. -/
def wfStoreB (blocks : List (String × Block)) : Bool :=
  blocks.all (fun kb =>
    kb.2.chainLength = 0 ||
    (match mapGet blocks kb.2.prevBlockHash with
     | some q => q.chainLength + 1 = kb.2.chainLength
     | none => false))

theorem wfStore_parent (blocks : List (String × Block)) (hwf : wfStoreB blocks = true)
    (k : String) (b : Block) (hget : mapGet blocks k = some b) (hne : b.chainLength ≠ 0) :
    ∃ q, mapGet blocks b.prevBlockHash = some q ∧ q.chainLength + 1 = b.chainLength := by
  have hmem := mapGet_mem blocks k b hget
  have hall := List.all_eq_true.mp hwf (k, b) hmem
  simp only [Bool.or_eq_true, decide_eq_true_eq] at hall
  rcases hall with h0 | hm
  · exact absurd h0 hne
  · cases hq : mapGet blocks b.prevBlockHash with
    | none => rw [hq] at hm; simp at hm
    | some q =>
      rw [hq] at hm
      simp only [decide_eq_true_eq] at hm
      exact ⟨q, rfl, hm⟩

/-- The `j`-th ancestor of a block through the store's parent links. -/
def parentChain (blocks : List (String × Block)) : Nat → Block → Option Block
  | 0, b => some b
  | j + 1, b => (mapGet blocks b.prevBlockHash).bind (parentChain blocks j)

theorem walkBack_spec (blocks : List (String × Block)) (hwf : wfStoreB blocks = true) :
    ∀ (d : Nat) (b : Block) (k : String) (t : Nat) (fuel : Nat),
      mapGet blocks k = some b → t ≤ b.chainLength → b.chainLength - t = d → d < fuel →
      (Client.walkBack blocks fuel b t).chainLength = t ∧
      ∃ j, parentChain blocks j b = some (Client.walkBack blocks fuel b t) := by
  intro d
  induction d with
  | zero =>
    intro b k t fuel hget hle hdiff hfuel
    have ht : t = b.chainLength := by omega
    obtain ⟨fuel, rfl⟩ : ∃ f, fuel = f + 1 := ⟨fuel - 1, by omega⟩
    have hnot : ¬ t < b.chainLength := by omega
    simp only [Client.walkBack, if_neg hnot]
    exact ⟨ht.symm, 0, rfl⟩
  | succ d ih =>
    intro b k t fuel hget hle hdiff hfuel
    have hlt : t < b.chainLength := by omega
    obtain ⟨fuel, rfl⟩ : ∃ f, fuel = f + 1 := ⟨fuel - 1, by omega⟩
    obtain ⟨q, hq, hqlen⟩ :=
      wfStore_parent blocks hwf k b hget (by omega)
    simp only [Client.walkBack, if_pos hlt, hq]
    obtain ⟨ih1, j, ih2⟩ := ih q b.prevBlockHash t fuel hq (by omega) (by omega) (by omega)
    refine ⟨ih1, j + 1, ?_⟩
    simp only [parentChain, hq, Option.bind_some]
    exact ih2

/-- Inserting a new block whose parent is stored consistently preserves
chain consistency of the store. -/
theorem wfStoreB_insert (blocks : List (String × Block)) (idNew : String) (bNew : Block)
    (hnone : mapGet blocks idNew = none) (hwf : wfStoreB blocks = true)
    (q : Block) (hq : mapGet blocks bNew.prevBlockHash = some q)
    (hqlen : q.chainLength + 1 = bNew.chainLength) :
    wfStoreB (mapSet blocks idNew bNew) = true := by
  have hext : ∀ (k : String), mapGet (blocks ++ [(idNew, bNew)]) k =
      if k = idNew then some bNew else mapGet blocks k := by
    rw [← mapSet_of_get_none blocks idNew bNew hnone]
    exact fun k => mapGet_of_get_none blocks idNew k bNew hnone
  rw [wfStoreB, mapSet_of_get_none blocks idNew bNew hnone, List.all_append]
  refine Bool.and_eq_true_iff.mpr ⟨?_, ?_⟩
  · refine List.all_eq_true.mpr ?_
    intro kb hmem
    have hold := List.all_eq_true.mp hwf kb hmem
    simp only [Bool.or_eq_true, decide_eq_true_eq] at hold ⊢
    rcases hold with h0 | hm
    · exact Or.inl h0
    · refine Or.inr ?_
      cases hq2 : mapGet blocks kb.2.prevBlockHash with
      | none => rw [hq2] at hm; simp at hm
      | some q2 =>
        rw [hq2] at hm
        have hneq : kb.2.prevBlockHash ≠ idNew := by
          intro he
          rw [he, hnone] at hq2
          exact Option.noConfusion hq2
        rw [hext kb.2.prevBlockHash, if_neg hneq, hq2]
        exact hm
  · refine List.all_eq_true.mpr ?_
    intro kb hmem
    have hkb : kb = (idNew, bNew) := List.mem_singleton.mp hmem
    subst hkb
    simp only [Bool.or_eq_true, decide_eq_true_eq]
    refine Or.inr ?_
    have hneq : bNew.prevBlockHash ≠ idNew := by
      intro he
      rw [he, hnone] at hq
      exact Option.noConfusion hq
    rw [hext bNew.prevBlockHash, if_neg hneq, hq]
    simp only [decide_eq_true_eq]
    exact hqlen

theorem rerunLoop_true (c : Crypto) (txs : List Transaction) (b : Block)
    (h : (Block.rerunLoop c b txs).1 = true) :
    admissibleAll c b txs = true ∧ (Block.rerunLoop c b txs).2 = addTxs c b txs := by
  induction txs generalizing b with
  | nil => exact ⟨rfl, rfl⟩
  | cons tx rest ih =>
    simp only [Block.rerunLoop] at h ⊢
    by_cases hr : (b.addTransaction c tx).1 = true
    · rw [if_pos hr] at h ⊢
      obtain ⟨h1, h2⟩ := ih _ h
      simp only [admissibleAll, Bool.and_eq_true, addTxs]
      exact ⟨⟨hr, h1⟩, h2⟩
    · rw [if_neg hr] at h
      simp at h

theorem rerunLoop_frame (c : Crypto) (txs : List Transaction) (b : Block) :
    (Block.rerunLoop c b txs).2.chainLength = b.chainLength ∧
    (Block.rerunLoop c b txs).2.prevBlockHash = b.prevBlockHash ∧
    (Block.rerunLoop c b txs).2.proof = b.proof ∧
    (Block.rerunLoop c b txs).2.timestamp = b.timestamp ∧
    (Block.rerunLoop c b txs).2.rewardAddr = b.rewardAddr := by
  induction txs generalizing b with
  | nil => exact ⟨rfl, rfl, rfl, rfl, rfl⟩
  | cons tx rest ih =>
    obtain ⟨f1, f2, f3, f4, _, _, f7⟩ := addTransaction_frame c b tx
    simp only [Block.rerunLoop]
    by_cases hr : (b.addTransaction c tx).1 = true
    · rw [if_pos hr]
      obtain ⟨i1, i2, i3, i4, i5⟩ := ih (b.addTransaction c tx).2
      exact ⟨i1.trans f1, i2.trans f2, i3.trans f3, i4.trans f4, i5.trans f7⟩
    · rw [if_neg hr]
      exact ⟨f1, f2, f3, f4, f7⟩

/-- The transactions map of a block whose keys are the transaction ids
(which is how `addTransaction` stores them). -/
def txKeysGood (c : Crypto) (b : Block) : Bool :=
  b.transactions.all (fun kv => kv.1 = kv.2.id c)

theorem map_pair_of_keysGood (c : Crypto) (l : List (String × Transaction))
    (h : l.all (fun kv => kv.1 = kv.2.id c) = true) :
    (l.map (fun kv => kv.2)).map (fun tx => (Transaction.id c tx, tx)) = l := by
  induction l with
  | nil => rfl
  | cons kv rest ih =>
    simp only [List.all_cons, Bool.and_eq_true, decide_eq_true_eq] at h
    simp only [List.map_cons, ih h.2, ← h.1]

/-- A successful rerun of a block with well-keyed transactions rebuilds
exactly the same transactions map. -/
theorem rerun_transactions_preserved (c : Crypto) (b P : Block)
    (hkeys : txKeysGood c b = true) (h : (b.rerun c P).1 = true) :
    (b.rerun c P).2.transactions = b.transactions := by
  rw [rerun_eq] at h ⊢
  obtain ⟨hadm, heq⟩ := rerunLoop_true c _ _ h
  rw [heq, addTxs_transactions c _ _ hadm]
  simp only [List.nil_append]
  exact map_pair_of_keysGood c b.transactions hkeys

theorem mapRemove_of_get_none {κ α : Type} [DecidableEq κ] (m : List (κ × α)) (k : κ)
    (h : mapGet m k = none) : mapRemove m k = m := by
  induction m with
  | nil => rfl
  | cons p rest ih =>
    obtain ⟨k', v'⟩ := p
    by_cases h0 : k' = k
    · simp [mapGet, h0] at h
    · simp only [mapGet, if_neg h0] at h
      simp [mapRemove, h0, ih h]

theorem rerun_frame (c : Crypto) (b P : Block) :
    (b.rerun c P).2.chainLength = b.chainLength ∧
    (b.rerun c P).2.prevBlockHash = b.prevBlockHash ∧
    (b.rerun c P).2.proof = b.proof ∧
    (b.rerun c P).2.timestamp = b.timestamp ∧
    (b.rerun c P).2.rewardAddr = b.rewardAddr := by
  rw [rerun_eq]
  exact rerunLoop_frame c _ _

theorem serializeChars_fields (x y : Block)
    (h1 : x.transactions = y.transactions) (h2 : x.prevBlockHash = y.prevBlockHash)
    (h3 : x.timestamp = y.timestamp) (h4 : x.proof = y.proof)
    (h5 : x.rewardAddr = y.rewardAddr) (h6 : x.chainLength = y.chainLength) :
    x.serializeChars = y.serializeChars := by
  unfold Block.serializeChars
  rw [h1, h2, h3, h4, h5, h6]

/-- A successful rerun of a well-keyed block does not change its id: the
serialized form reads only fields that `rerun` preserves. -/
theorem rerun_id_preserved (c : Crypto) (b P : Block)
    (hkeys : txKeysGood c b = true) (h : (b.rerun c P).1 = true) :
    Block.id c (b.rerun c P).2 = Block.id c b := by
  obtain ⟨f1, f2, f3, f4, f5⟩ := rerun_frame c b P
  unfold Block.id Block.hashVal Block.serialize
  rw [serializeChars_fields (b.rerun c P).2 b
    (rerun_transactions_preserved c b P hkeys h) f2 f4 f3 f5 f1]

/-- The accepted branch of `receiveBlock`, under an empty waiting set for
the accepted id: the rerun block is returned, it is stored, and the chain
pointers move exactly when the new chain is strictly longer. -/
theorem receiveBlockF_accept (c : Crypto) (fuel : Nat) (st : ClientState) (block par : Block)
    (hdup : mapGet st.blocks (Block.id c block) = none)
    (hproof : block.hasValidProof c = true)
    (hpar : mapGet st.blocks block.prevBlockHash = some par)
    (hrr : (block.rerun c par).1 = true)
    (hpend : mapGet st.pendingBlocks (Block.id c (block.rerun c par).2) = none) :
    Client.receiveBlockF c (fuel + 1) st block =
      (some (block.rerun c par).2,
       if st.lastBlock.chainLength < (block.rerun c par).2.chainLength then
         Client.setLastConfirmed
           { st with
               blocks := mapSet st.blocks (Block.id c (block.rerun c par).2)
                 (block.rerun c par).2,
               lastBlock := (block.rerun c par).2 }
       else
         { st with
             blocks := mapSet st.blocks (Block.id c (block.rerun c par).2)
               (block.rerun c par).2 }) := by
  have hiso : ¬ (mapGet st.blocks (Block.id c block)).isSome = true := by simp [hdup]
  simp only [Client.receiveBlockF]
  rw [if_neg hiso, if_neg (by simp [hproof]), hpar]
  dsimp only
  rw [if_pos hrr]
  by_cases hc : st.lastBlock.chainLength < (block.rerun c par).2.chainLength
  · rw [if_pos hc]
    simp only [Client.setLastConfirmed, hpend, Option.getD_none, List.foldl_nil,
      mapRemove_of_get_none _ _ hpend]
  · rw [if_neg hc]
    simp only [hpend, Option.getD_none, List.foldl_nil,
      mapRemove_of_get_none _ _ hpend]

/-- C4: when `receiveBlock` accepts a block (returning `b'`, the received
block with its derived state rebuilt), `lastBlock` is replaced by it if
and only if its chain is strictly longer than the incumbent's (ties keep
the incumbent untouched, along with `lastConfirmedBlock`), and on
replacement `lastConfirmedBlock` is recomputed to the stored ancestor of
the new `lastBlock` at height `lastBlock.chainLength − 6` (truncated at
0).  Hypotheses: no orphan was waiting on the accepted id (so the
recursive unstuck pass is empty), the store is chain-consistent, the
incumbent `lastBlock` is stored under its id, the incoming block's
transaction map is keyed by transaction ids, and its chain length is one
more than its stored parent's. -/
theorem receiveBlock_fork_choice (c : Crypto) (fuel : Nat) (st : ClientState)
    (block b' par : Block) (st' : ClientState)
    (hrun : Client.receiveBlockF c (fuel + 1) st block = (some b', st'))
    (hpend : mapGet st.pendingBlocks (Block.id c b') = none)
    (hwf : wfStoreB st.blocks = true)
    (hlast : mapGet st.blocks (Block.id c st.lastBlock) = some st.lastBlock)
    (hkeys : txKeysGood c block = true)
    (hpar : mapGet st.blocks block.prevBlockHash = some par)
    (hlen : par.chainLength + 1 = block.chainLength) :
    (st'.lastBlock = b' ↔ st.lastBlock.chainLength < block.chainLength) ∧
    (¬ st.lastBlock.chainLength < block.chainLength →
      st'.lastBlock = st.lastBlock ∧ st'.lastConfirmedBlock = st.lastConfirmedBlock) ∧
    (st.lastBlock.chainLength < block.chainLength →
      st'.lastBlock = b' ∧
      st'.lastConfirmedBlock.chainLength = b'.chainLength - CONFIRMED_DEPTH ∧
      ∃ j, parentChain st'.blocks j b' = some st'.lastConfirmedBlock) := by
  have hdup : mapGet st.blocks (Block.id c block) = none := by
    by_contra hne
    have hiso : (mapGet st.blocks (Block.id c block)).isSome = true := by
      rw [Option.isSome_iff_ne_none]
      exact hne
    simp only [Client.receiveBlockF, if_pos hiso] at hrun
    simp at hrun
  have hproof : block.hasValidProof c = true := by
    by_contra hnp
    simp only [Client.receiveBlockF] at hrun
    rw [if_neg (by simp [hdup]), if_pos hnp] at hrun
    simp at hrun
  have hrr : (block.rerun c par).1 = true := by
    by_contra hnr
    simp only [Client.receiveBlockF] at hrun
    rw [if_neg (by simp [hdup]), if_neg (by simp [hproof]), hpar] at hrun
    dsimp only at hrun
    rw [if_neg hnr] at hrun
    simp at hrun
  have hbeq : b' = (block.rerun c par).2 := by
    have h2 := hrun
    simp only [Client.receiveBlockF] at h2
    rw [if_neg (by simp [hdup]), if_neg (by simp [hproof]), hpar] at h2
    dsimp only at h2
    rw [if_pos hrr] at h2
    have h3 := congrArg Prod.fst h2
    simp only [Prod.fst] at h3
    exact (Option.some.injEq _ _ ▸ h3).symm
  subst hbeq
  have hacc := receiveBlockF_accept c fuel st block par hdup hproof hpar hrr hpend
  rw [hrun] at hacc
  have hst : st' = (if st.lastBlock.chainLength < (block.rerun c par).2.chainLength then
      Client.setLastConfirmed
        { st with
            blocks := mapSet st.blocks (Block.id c (block.rerun c par).2) (block.rerun c par).2,
            lastBlock := (block.rerun c par).2 }
    else
      { st with
          blocks := mapSet st.blocks (Block.id c (block.rerun c par).2)
            (block.rerun c par).2 }) := by
    have h4 := congrArg Prod.snd hacc
    simpa using h4
  obtain ⟨hRcl, hRph, _, _, _⟩ := rerun_frame c block par
  have hid : Block.id c (block.rerun c par).2 = Block.id c block :=
    rerun_id_preserved c block par hkeys hrr
  have hdupR : mapGet st.blocks (Block.id c (block.rerun c par).2) = none := by
    rw [hid]
    exact hdup
  by_cases hc : st.lastBlock.chainLength < block.chainLength
  · have hcR : st.lastBlock.chainLength < (block.rerun c par).2.chainLength := by
      rw [hRcl]
      exact hc
    rw [if_pos hcR] at hst
    have hwf' : wfStoreB
        (mapSet st.blocks (Block.id c (block.rerun c par).2) (block.rerun c par).2) = true := by
      refine wfStoreB_insert st.blocks _ _ hdupR hwf par ?_ ?_
      · rw [hRph]
        exact hpar
      · rw [hRcl]
        exact hlen
    obtain ⟨hwcl, j, hwpc⟩ := walkBack_spec
      (mapSet st.blocks (Block.id c (block.rerun c par).2) (block.rerun c par).2) hwf'
      ((block.rerun c par).2.chainLength - ((block.rerun c par).2.chainLength - CONFIRMED_DEPTH))
      (block.rerun c par).2 (Block.id c (block.rerun c par).2)
      ((block.rerun c par).2.chainLength - CONFIRMED_DEPTH)
      ((block.rerun c par).2.chainLength + 1)
      (mapGet_mapSet_self _ _ _) (Nat.sub_le _ _) rfl (by omega)
    have hlb : st'.lastBlock = (block.rerun c par).2 := by
      rw [hst]
      rfl
    have hlc : st'.lastConfirmedBlock = Client.walkBack
        (mapSet st.blocks (Block.id c (block.rerun c par).2) (block.rerun c par).2)
        ((block.rerun c par).2.chainLength + 1) (block.rerun c par).2
        ((block.rerun c par).2.chainLength - CONFIRMED_DEPTH) := by
      rw [hst]
      rfl
    have hbl : st'.blocks =
        mapSet st.blocks (Block.id c (block.rerun c par).2) (block.rerun c par).2 := by
      rw [hst]
      rfl
    refine ⟨⟨fun _ => hc, fun _ => hlb⟩, fun hn => absurd hc hn, fun _ => ⟨hlb, ?_, ?_⟩⟩
    · rw [hlc]
      exact hwcl
    · rw [hlc, hbl]
      exact ⟨j, hwpc⟩
  · have hcR : ¬ st.lastBlock.chainLength < (block.rerun c par).2.chainLength := by
      rw [hRcl]
      exact hc
    rw [if_neg hcR] at hst
    have hlb : st'.lastBlock = st.lastBlock := by
      rw [hst]
    have hlc : st'.lastConfirmedBlock = st.lastConfirmedBlock := by
      rw [hst]
    have hne : st'.lastBlock ≠ (block.rerun c par).2 := by
      rw [hlb]
      intro he
      rw [he, hid] at hlast
      rw [hlast] at hdup
      exact Option.noConfusion hdup
    exact ⟨⟨fun he => absurd he hne, fun hcc => absurd hcc hc⟩,
      fun _ => ⟨hlb, hlc⟩, fun hcc => absurd hcc hc⟩

def w4state : ClientState := Client.init cId "k" "pk" w5genesis

def w4accepted : Block := (w5block.rerun cId w5genesis).2

def w4final : ClientState := (Client.receiveBlockF cId (0 + 1) w4state w5block).2

set_option maxRecDepth 200000 in
/-- Witness for C4 at a concrete client receiving a longer block atop its
genesis. -/
theorem receiveBlock_fork_choice_witness :
    (w4final.lastBlock = w4accepted ↔
      w4state.lastBlock.chainLength < w5block.chainLength) ∧
    (¬ w4state.lastBlock.chainLength < w5block.chainLength →
      w4final.lastBlock = w4state.lastBlock ∧
      w4final.lastConfirmedBlock = w4state.lastConfirmedBlock) ∧
    (w4state.lastBlock.chainLength < w5block.chainLength →
      w4final.lastBlock = w4accepted ∧
      w4final.lastConfirmedBlock.chainLength = w4accepted.chainLength - CONFIRMED_DEPTH ∧
      ∃ j, parentChain w4final.blocks j w4accepted = some w4final.lastConfirmedBlock) :=
  receiveBlock_fork_choice cId 0 w4state w5block w4accepted w5genesis w4final
    (by decide) (by decide) (by decide) (by decide) (by decide) (by decide) (by decide)

theorem expectChars_append (p rest : List Char) : expectChars p (p ++ rest) = some rest := by
  induction p with
  | nil => rfl
  | cons c cs ih => simp [expectChars, ih]

/-- The remaining input does not begin with a decimal digit (so a number
parse stops exactly at the rendered boundary). -/
def noDigitHead : List Char → Prop
  | [] => True
  | c :: _ => c.isDigit = false

theorem hexVal_hexDig (d : Nat) (h : d < 16) : hexVal (hexDig d) = some d := by
  interval_cases d <;> rfl

theorem escChar_low (c : Char) (h8 : c ≠ '\x08') (h12 : c ≠ '\x0c') (h10 : c ≠ '\n')
    (h13 : c ≠ '\r') (h9 : c ≠ '\t') (hlow : c.toNat < 32) :
    escChar c = ['\\', 'u', '0', '0', hexDig (c.toNat / 16), hexDig (c.toNat % 16)] := by
  have hq : c ≠ '"' := by intro he; subst he; simp at hlow
  have hb : c ≠ '\\' := by intro he; subst he; simp at hlow
  simp [escChar, hq, hb, h8, h12, h10, h13, h9, hlow]

theorem psc_quote (cs acc : List Char) :
    parseStrChars ('"' :: cs) acc = some (String.mk acc.reverse, cs) := by
  rw [parseStrChars.eq_def]
  simp

theorem psc_esc_quote (cs acc : List Char) :
    parseStrChars ('\\' :: '"' :: cs) acc = parseStrChars cs ('"' :: acc) := by
  rw [parseStrChars.eq_def]
  simp

theorem psc_esc_back (cs acc : List Char) :
    parseStrChars ('\\' :: '\\' :: cs) acc = parseStrChars cs ('\\' :: acc) := by
  rw [parseStrChars.eq_def]
  simp

theorem psc_esc_b (cs acc : List Char) :
    parseStrChars ('\\' :: 'b' :: cs) acc = parseStrChars cs ('\x08' :: acc) := by
  rw [parseStrChars.eq_def]
  simp

theorem psc_esc_f (cs acc : List Char) :
    parseStrChars ('\\' :: 'f' :: cs) acc = parseStrChars cs ('\x0c' :: acc) := by
  rw [parseStrChars.eq_def]
  simp

theorem psc_esc_n (cs acc : List Char) :
    parseStrChars ('\\' :: 'n' :: cs) acc = parseStrChars cs ('\n' :: acc) := by
  rw [parseStrChars.eq_def]
  simp

theorem psc_esc_r (cs acc : List Char) :
    parseStrChars ('\\' :: 'r' :: cs) acc = parseStrChars cs ('\r' :: acc) := by
  rw [parseStrChars.eq_def]
  simp

theorem psc_esc_t (cs acc : List Char) :
    parseStrChars ('\\' :: 't' :: cs) acc = parseStrChars cs ('\t' :: acc) := by
  rw [parseStrChars.eq_def]
  simp

theorem psc_esc_u (h1 h2 h3 h4 : Char) (a b c3 d : Nat) (cs acc : List Char)
    (e1 : hexVal h1 = some a) (e2 : hexVal h2 = some b) (e3 : hexVal h3 = some c3)
    (e4 : hexVal h4 = some d) :
    parseStrChars ('\\' :: 'u' :: h1 :: h2 :: h3 :: h4 :: cs) acc =
      parseStrChars cs (Char.ofNat (((a * 16 + b) * 16 + c3) * 16 + d) :: acc) := by
  rw [parseStrChars.eq_def]
  simp [e1, e2, e3, e4]

theorem psc_plain (c : Char) (hq : c ≠ '"') (hb : c ≠ '\\') (cs acc : List Char) :
    parseStrChars (c :: cs) acc = parseStrChars cs (c :: acc) := by
  rw [parseStrChars.eq_def]
  simp [hq, hb]

theorem parseStrChars_escList (l : List Char) :
    ∀ (acc rest : List Char),
      parseStrChars (escList l ++ '"' :: rest) acc =
        some (String.mk (acc.reverse ++ l), rest) := by
  induction l with
  | nil =>
    intro acc rest
    rw [show escList [] ++ '"' :: rest = '"' :: rest from rfl, psc_quote]
    simp
  | cons c cs ih =>
    intro acc rest
    rw [show escList (c :: cs) ++ '"' :: rest = escChar c ++ (escList cs ++ '"' :: rest)
      from by simp [escList]]
    have hacc : (c :: acc).reverse ++ cs = acc.reverse ++ c :: cs := by simp
    by_cases hq : c = '"'
    · subst hq
      rw [show escChar '"' = ['\\', '"'] from rfl]
      rw [show (['\\', '"'] : List Char) ++ (escList cs ++ '"' :: rest) =
        '\\' :: '"' :: (escList cs ++ '"' :: rest) from rfl]
      rw [psc_esc_quote, ih _ rest, hacc]
    · by_cases hb : c = '\\'
      · subst hb
        rw [show escChar '\\' = ['\\', '\\'] from rfl]
        rw [show (['\\', '\\'] : List Char) ++ (escList cs ++ '"' :: rest) =
          '\\' :: '\\' :: (escList cs ++ '"' :: rest) from rfl]
        rw [psc_esc_back, ih _ rest, hacc]
      · by_cases h8 : c = '\x08'
        · subst h8
          rw [show escChar '\x08' = ['\\', 'b'] from rfl]
          rw [show (['\\', 'b'] : List Char) ++ (escList cs ++ '"' :: rest) =
            '\\' :: 'b' :: (escList cs ++ '"' :: rest) from rfl]
          rw [psc_esc_b, ih _ rest, hacc]
        · by_cases h12 : c = '\x0c'
          · subst h12
            rw [show escChar '\x0c' = ['\\', 'f'] from rfl]
            rw [show (['\\', 'f'] : List Char) ++ (escList cs ++ '"' :: rest) =
              '\\' :: 'f' :: (escList cs ++ '"' :: rest) from rfl]
            rw [psc_esc_f, ih _ rest, hacc]
          · by_cases h10 : c = '\n'
            · subst h10
              rw [show escChar '\n' = ['\\', 'n'] from rfl]
              rw [show (['\\', 'n'] : List Char) ++ (escList cs ++ '"' :: rest) =
                '\\' :: 'n' :: (escList cs ++ '"' :: rest) from rfl]
              rw [psc_esc_n, ih _ rest, hacc]
            · by_cases h13 : c = '\r'
              · subst h13
                rw [show escChar '\r' = ['\\', 'r'] from rfl]
                rw [show (['\\', 'r'] : List Char) ++ (escList cs ++ '"' :: rest) =
                  '\\' :: 'r' :: (escList cs ++ '"' :: rest) from rfl]
                rw [psc_esc_r, ih _ rest, hacc]
              · by_cases h9 : c = '\t'
                · subst h9
                  rw [show escChar '\t' = ['\\', 't'] from rfl]
                  rw [show (['\\', 't'] : List Char) ++ (escList cs ++ '"' :: rest) =
                    '\\' :: 't' :: (escList cs ++ '"' :: rest) from rfl]
                  rw [psc_esc_t, ih _ rest, hacc]
                · by_cases hlow : c.toNat < 32
                  · rw [escChar_low c h8 h12 h10 h13 h9 hlow]
                    rw [show (['\\', 'u', '0', '0', hexDig (c.toNat / 16),
                        hexDig (c.toNat % 16)] : List Char) ++ (escList cs ++ '"' :: rest) =
                      '\\' :: 'u' :: '0' :: '0' :: hexDig (c.toNat / 16) ::
                        hexDig (c.toNat % 16) :: (escList cs ++ '"' :: rest) from rfl]
                    rw [psc_esc_u '0' '0' (hexDig (c.toNat / 16)) (hexDig (c.toNat % 16))
                      0 0 (c.toNat / 16) (c.toNat % 16) _ _ rfl rfl
                      (hexVal_hexDig _ (by omega)) (hexVal_hexDig _ (by omega))]
                    rw [show ((0 * 16 + 0) * 16 + c.toNat / 16) * 16 + c.toNat % 16 =
                      c.toNat from by omega]
                    rw [Char.ofNat_toNat, ih _ rest, hacc]
                  · rw [show escChar c = [c] from by
                      simp [escChar, hq, hb, h8, h12, h10, h13, h9, hlow]]
                    rw [show ([c] : List Char) ++ (escList cs ++ '"' :: rest) =
                      c :: (escList cs ++ '"' :: rest) from rfl]
                    rw [psc_plain c hq hb, ih _ rest, hacc]

theorem parseString_renderStr (s : String) (rest : List Char) :
    parseString (renderStr s ++ rest) = some (s, rest) := by
  rw [show renderStr s ++ rest = '"' :: (escList s.toList ++ '"' :: rest) from by
    simp [renderStr]]
  rw [show parseString ('"' :: (escList s.toList ++ '"' :: rest)) =
    parseStrChars (escList s.toList ++ '"' :: rest) [] from by rw [parseString.eq_def]; simp]
  rw [parseStrChars_escList s.toList [] rest]
  cases s
  rfl

theorem decDig_isDigit (d : Nat) (h : d < 10) : (decDig d).isDigit = true := by
  interval_cases d <;> rfl

theorem decDig_toNat (d : Nat) (h : d < 10) : (decDig d).toNat - 48 = d := by
  interval_cases d <;> rfl

theorem renderNatAux_spec :
    ∀ (fuel n : Nat), n < fuel →
      (∀ c ∈ renderNatAux fuel n, c.isDigit = true) ∧
      renderNatAux fuel n ≠ [] ∧
      ∀ acc, List.foldl (fun a c => a * 10 + (c.toNat - 48)) acc (renderNatAux fuel n) =
        acc * 10 ^ (renderNatAux fuel n).length + n := by
  intro fuel
  induction fuel with
  | zero => intro n h; omega
  | succ fuel ih =>
    intro n h
    by_cases h10 : n < 10
    · simp only [renderNatAux, if_pos h10]
      refine ⟨?_, by simp, ?_⟩
      · intro c hc
        rw [List.mem_singleton.mp hc]
        exact decDig_isDigit n h10
      · intro acc
        simp [decDig_toNat n h10]
    · have hdiv : n / 10 < fuel := by omega
      obtain ⟨ihd, ihn, ihf⟩ := ih (n / 10) hdiv
      simp only [renderNatAux, if_neg h10]
      refine ⟨?_, by simp, ?_⟩
      · intro c hc
        rcases List.mem_append.mp hc with hc1 | hc2
        · exact ihd c hc1
        · rw [List.mem_singleton.mp hc2]
          exact decDig_isDigit _ (by omega)
      · intro acc
        rw [List.foldl_append, ihf acc]
        simp only [List.foldl_cons, List.foldl_nil, List.length_append,
          List.length_singleton]
        rw [decDig_toNat _ (by omega), pow_succ]
        have hmod := Nat.div_add_mod n 10
        ring_nf
        omega

theorem parseDigits_stop (rest : List Char) (acc : Nat) (h : noDigitHead rest) :
    parseDigits rest acc = (acc, rest) := by
  cases rest with
  | nil => rfl
  | cons c cs =>
    rw [parseDigits.eq_def]
    simp only [noDigitHead] at h
    simp [h]

theorem parseDigits_run (ds : List Char) :
    ∀ (rest : List Char) (acc : Nat), (∀ c ∈ ds, c.isDigit = true) → noDigitHead rest →
      parseDigits (ds ++ rest) acc =
        (List.foldl (fun a c => a * 10 + (c.toNat - 48)) acc ds, rest) := by
  induction ds with
  | nil =>
    intro rest acc _ h
    exact parseDigits_stop rest acc h
  | cons d ds ih =>
    intro rest acc hd h
    rw [show (d :: ds) ++ rest = d :: (ds ++ rest) from rfl, parseDigits.eq_def]
    dsimp only
    rw [if_pos (hd d (List.mem_cons_self d ds))]
    rw [ih rest _ (fun c hc => hd c (List.mem_cons_of_mem d hc)) h]
    rfl

theorem parseNat_renderNat (n : Nat) (rest : List Char) (h : noDigitHead rest) :
    parseNat (renderNat n ++ rest) = some (n, rest) := by
  obtain ⟨hdig, hne, hfold⟩ := renderNatAux_spec (n + 1) n (Nat.lt_succ_self n)
  show parseNat (renderNatAux (n + 1) n ++ rest) = some (n, rest)
  cases hds : renderNatAux (n + 1) n with
  | nil => exact absurd hds hne
  | cons d ds =>
    rw [hds] at hdig hfold
    have hd : d.isDigit = true := hdig d (List.mem_cons_self d ds)
    rw [show (d :: ds) ++ rest = d :: (ds ++ rest) from rfl, parseNat.eq_def]
    dsimp only
    rw [if_pos hd]
    rw [parseDigits_run ds rest _ (fun c hc => hdig c (List.mem_cons_of_mem d hc)) h]
    have hv := hfold 0
    simp only [List.foldl_cons, Nat.zero_mul, Nat.zero_add] at hv
    rw [hv]

theorem isDigit_ne_dash (c : Char) (h : c.isDigit = true) : c ≠ '-' := by
  intro he
  subst he
  simp at h

theorem parseInt_renderInt (n : Int) (rest : List Char) (h : noDigitHead rest) :
    parseInt (renderInt n ++ rest) = some (n, rest) := by
  by_cases hn : n < 0
  · rw [show renderInt n = '-' :: renderNat (-n).toNat from by simp [renderInt, hn]]
    rw [show ('-' :: renderNat (-n).toNat) ++ rest = '-' :: (renderNat (-n).toNat ++ rest)
      from rfl]
    rw [parseInt.eq_def]
    dsimp only
    rw [if_pos rfl, parseNat_renderNat _ rest h]
    simp only [Option.map_some']
    have hcast : ((-n).toNat : Int) = -n := Int.toNat_of_nonneg (by omega)
    rw [hcast]
    simp
  · rw [show renderInt n = renderNat n.toNat from by simp [renderInt, hn]]
    obtain ⟨hdig, hne, _⟩ := renderNatAux_spec (n.toNat + 1) n.toNat (Nat.lt_succ_self _)
    have hpn : parseNat (renderNat n.toNat ++ rest) = some (n.toNat, rest) :=
      parseNat_renderNat n.toNat rest h
    show parseInt (renderNatAux (n.toNat + 1) n.toNat ++ rest) = some (n, rest)
    have hpn2 : parseNat (renderNatAux (n.toNat + 1) n.toNat ++ rest) =
        some (n.toNat, rest) := hpn
    cases hds : renderNatAux (n.toNat + 1) n.toNat with
    | nil => exact absurd hds hne
    | cons d ds =>
      rw [hds] at hdig hpn2
      have hd : d.isDigit = true := hdig d (List.mem_cons_self d ds)
      rw [show (d :: ds) ++ rest = d :: (ds ++ rest) from rfl, parseInt.eq_def]
      dsimp only
      rw [if_neg (by simpa using isDigit_ne_dash d hd)]
      rw [show (d :: (ds ++ rest)) = (d :: ds) ++ rest from rfl, hpn2]
      simp only [Option.map_some']
      rw [Int.toNat_of_nonneg (by omega)]

theorem noDigitHead_cons (c : Char) (x : List Char) (h : c.isDigit = false) :
    noDigitHead (c :: x) := h

theorem parseOutput_render (o : Output) (rest : List Char) :
    parseOutput (Output.render o ++ rest) = some (o, rest) := by
  have h1 : Output.render o ++ rest =
      ['\x7b', '"', 'a', 'm', 'o', 'u', 'n', 't', '"', ':'] ++ (renderInt o.amount ++
        ([',', '"', 'a', 'd', 'd', 'r', 'e', 's', 's', '"', ':'] ++ (renderStr o.address ++
          ('\x7d' :: rest)))) := by
    simp [Output.render]
  have h2 : parseInt (renderInt o.amount ++
      ([',', '"', 'a', 'd', 'd', 'r', 'e', 's', 's', '"', ':'] ++ (renderStr o.address ++
        ('\x7d' :: rest)))) =
      some (o.amount, [',', '"', 'a', 'd', 'd', 'r', 'e', 's', 's', '"', ':'] ++
        (renderStr o.address ++ ('\x7d' :: rest))) :=
    parseInt_renderInt _ _ (noDigitHead_cons _ _ (by decide))
  have h3 : parseString (renderStr o.address ++ ('\x7d' :: rest)) =
      some (o.address, '\x7d' :: rest) := parseString_renderStr _ _
  simp only [parseOutput, h1, expectChars_append, h2, h3, Option.bind_eq_bind,
    Option.some_bind]
  rw [show expectChars ['\x7d'] ('\x7d' :: rest) = some rest from rfl]
  simp only [Option.some_bind]

/-- The tail of a comma-separated rendering: `,x1,x2,...`. -/
def sepTail : List (List Char) → List Char
  | [] => []
  | x :: xs => ',' :: (x ++ sepTail xs)

theorem renderCommaSep_cons (x : List Char) (xs : List (List Char)) :
    renderCommaSep (x :: xs) = x ++ sepTail xs := by
  induction xs generalizing x with
  | nil => simp [renderCommaSep, sepTail]
  | cons y ys ih => simp [renderCommaSep, sepTail, ih y]

theorem parseOutputsTail_rbrack (fuel : Nat) (cs : List Char) :
    parseOutputsTail fuel (']' :: cs) = some ([], cs) := by
  cases fuel <;> rfl

theorem parseOutputsTail_render (os : List Output) :
    ∀ (fuel : Nat) (rest : List Char), os.length ≤ fuel →
      parseOutputsTail fuel (sepTail (os.map Output.render) ++ (']' :: rest)) =
        some (os, rest) := by
  induction os with
  | nil =>
    intro fuel rest _
    rw [show sepTail ([].map Output.render) ++ (']' :: rest) = ']' :: rest from rfl]
    exact parseOutputsTail_rbrack fuel rest
  | cons o os ih =>
    intro fuel rest h
    obtain ⟨f, rfl⟩ : ∃ f, fuel = f + 1 := ⟨fuel - 1, by simp at h; omega⟩
    rw [show sepTail ((o :: os).map Output.render) ++ (']' :: rest) =
      ',' :: (Output.render o ++ (sepTail (os.map Output.render) ++ (']' :: rest)))
      from by simp [sepTail]]
    rw [show parseOutputsTail (f + 1)
        (',' :: (Output.render o ++ (sepTail (os.map Output.render) ++ (']' :: rest)))) =
      (do
        let (o2, cs) ← parseOutput
          (Output.render o ++ (sepTail (os.map Output.render) ++ (']' :: rest)))
        let (os2, cs) ← parseOutputsTail f cs
        some (o2 :: os2, cs)) from rfl]
    rw [parseOutput_render o _]
    simp only [Option.bind_eq_bind, Option.some_bind]
    rw [ih f rest (by simp at h; omega)]
    simp only [Option.some_bind]

theorem parseOutputs_ne (fuel : Nat) (c : Char) (cs : List Char) (h : c ≠ ']') :
    parseOutputs fuel (c :: cs) =
      (do
        let (o, cs2) ← parseOutput (c :: cs)
        let (os, cs3) ← parseOutputsTail fuel cs2
        some (o :: os, cs3)) := by
  rw [parseOutputs.eq_def]
  split
  · next heq =>
    rw [List.cons.injEq] at heq
    first
      | exact absurd heq.1.symm h
      | exact absurd heq.1 h
  · rfl

theorem parseOutputs_render (os : List Output) (fuel : Nat) (rest : List Char)
    (h : os.length ≤ fuel) :
    parseOutputs fuel (renderCommaSep (os.map Output.render) ++ (']' :: rest)) =
      some (os, rest) := by
  cases os with
  | nil => rfl
  | cons o os =>
    rw [List.map_cons, renderCommaSep_cons, List.append_assoc]
    obtain ⟨t, ht⟩ : ∃ t, Output.render o = '\x7b' :: t := ⟨_, rfl⟩
    rw [ht, List.cons_append]
    rw [parseOutputs_ne fuel _ _ (by decide)]
    rw [← List.cons_append, ← ht]
    rw [parseOutput_render o _]
    simp only [Option.bind_eq_bind, Option.some_bind]
    rw [parseOutputsTail_render os fuel rest (by simp at h; omega)]
    simp only [Option.some_bind]

theorem parseTx_render (t : Transaction) (fuel : Nat) (rest : List Char)
    (h : t.outputs.length ≤ fuel) :
    parseTx fuel (Transaction.wireChars t ++ rest) = some (t, rest) := by
  have h4 : parseOutputs fuel
      (renderCommaSep (t.outputs.map Output.render) ++ (']' :: ('\x7d' :: rest))) =
      some (t.outputs, '\x7d' :: rest) := parseOutputs_render _ _ _ h
  have h5 : expectChars ['\x7d'] ('\x7d' :: rest) = some rest := rfl
  cases hs : t.sig with
  | some s =>
    have h1 : Transaction.wireChars t ++ rest =
        ['\x7b', '"', 'f', 'r', 'o', 'm', '"', ':'] ++ (renderStr t.fromAddr ++
        ([',', '"', 'n', 'o', 'n', 'c', 'e', '"', ':'] ++ (renderNat t.nonce ++
        ([',', '"', 'p', 'u', 'b', 'K', 'e', 'y', '"', ':'] ++ (renderStr t.pubKey ++
        ([',', '"', 's', 'i', 'g', '"', ':'] ++ (renderStr s ++
        ([',', '"', 'f', 'e', 'e', '"', ':'] ++ (renderInt t.fee ++
        ([',', '"', 'o', 'u', 't', 'p', 'u', 't', 's', '"', ':', '['] ++
          (renderCommaSep (t.outputs.map Output.render) ++
            (']' :: ('\x7d' :: rest))))))))))))) := by
      simp [Transaction.wireChars, hs]
    have h2 : parseNat (renderNat t.nonce ++
        ([',', '"', 'p', 'u', 'b', 'K', 'e', 'y', '"', ':'] ++ (renderStr t.pubKey ++
        ([',', '"', 's', 'i', 'g', '"', ':'] ++ (renderStr s ++
        ([',', '"', 'f', 'e', 'e', '"', ':'] ++ (renderInt t.fee ++
        ([',', '"', 'o', 'u', 't', 'p', 'u', 't', 's', '"', ':', '['] ++
          (renderCommaSep (t.outputs.map Output.render) ++
            (']' :: ('\x7d' :: rest))))))))))) =
        some (t.nonce,
          [',', '"', 'p', 'u', 'b', 'K', 'e', 'y', '"', ':'] ++ (renderStr t.pubKey ++
          ([',', '"', 's', 'i', 'g', '"', ':'] ++ (renderStr s ++
          ([',', '"', 'f', 'e', 'e', '"', ':'] ++ (renderInt t.fee ++
          ([',', '"', 'o', 'u', 't', 'p', 'u', 't', 's', '"', ':', '['] ++
            (renderCommaSep (t.outputs.map Output.render) ++
              (']' :: ('\x7d' :: rest)))))))))) :=
      parseNat_renderNat _ _ (noDigitHead_cons _ _ (by decide))
    have h3 : parseInt (renderInt t.fee ++
        ([',', '"', 'o', 'u', 't', 'p', 'u', 't', 's', '"', ':', '['] ++
          (renderCommaSep (t.outputs.map Output.render) ++ (']' :: ('\x7d' :: rest))))) =
        some (t.fee,
          [',', '"', 'o', 'u', 't', 'p', 'u', 't', 's', '"', ':', '['] ++
            (renderCommaSep (t.outputs.map Output.render) ++ (']' :: ('\x7d' :: rest)))) :=
      parseInt_renderInt _ _ (noDigitHead_cons _ _ (by decide))
    simp only [parseTx, h1, expectChars_append, parseString_renderStr, h2, h3, h4, h5,
      Option.bind_eq_bind, Option.some_bind]
    rw [← hs]
  | none =>
    have h1 : Transaction.wireChars t ++ rest =
        ['\x7b', '"', 'f', 'r', 'o', 'm', '"', ':'] ++ (renderStr t.fromAddr ++
        ([',', '"', 'n', 'o', 'n', 'c', 'e', '"', ':'] ++ (renderNat t.nonce ++
        ([',', '"', 'p', 'u', 'b', 'K', 'e', 'y', '"', ':'] ++ (renderStr t.pubKey ++
        ([',', '"', 'f', 'e', 'e', '"', ':'] ++ (renderInt t.fee ++
        ([',', '"', 'o', 'u', 't', 'p', 'u', 't', 's', '"', ':', '['] ++
          (renderCommaSep (t.outputs.map Output.render) ++
            (']' :: ('\x7d' :: rest))))))))))) := by
      simp [Transaction.wireChars, hs]
    have h2 : parseNat (renderNat t.nonce ++
        ([',', '"', 'p', 'u', 'b', 'K', 'e', 'y', '"', ':'] ++ (renderStr t.pubKey ++
        ([',', '"', 'f', 'e', 'e', '"', ':'] ++ (renderInt t.fee ++
        ([',', '"', 'o', 'u', 't', 'p', 'u', 't', 's', '"', ':', '['] ++
          (renderCommaSep (t.outputs.map Output.render) ++
            (']' :: ('\x7d' :: rest))))))))) =
        some (t.nonce,
          [',', '"', 'p', 'u', 'b', 'K', 'e', 'y', '"', ':'] ++ (renderStr t.pubKey ++
          ([',', '"', 'f', 'e', 'e', '"', ':'] ++ (renderInt t.fee ++
          ([',', '"', 'o', 'u', 't', 'p', 'u', 't', 's', '"', ':', '['] ++
            (renderCommaSep (t.outputs.map Output.render) ++
              (']' :: ('\x7d' :: rest)))))))) :=
      parseNat_renderNat _ _ (noDigitHead_cons _ _ (by decide))
    have h3 : parseInt (renderInt t.fee ++
        ([',', '"', 'o', 'u', 't', 'p', 'u', 't', 's', '"', ':', '['] ++
          (renderCommaSep (t.outputs.map Output.render) ++ (']' :: ('\x7d' :: rest))))) =
        some (t.fee,
          [',', '"', 'o', 'u', 't', 'p', 'u', 't', 's', '"', ':', '['] ++
            (renderCommaSep (t.outputs.map Output.render) ++ (']' :: ('\x7d' :: rest)))) :=
      parseInt_renderInt _ _ (noDigitHead_cons _ _ (by decide))
    have h6 : expectChars [',', '"', 's', 'i', 'g', '"', ':']
        ([',', '"', 'f', 'e', 'e', '"', ':'] ++ (renderInt t.fee ++
        ([',', '"', 'o', 'u', 't', 'p', 'u', 't', 's', '"', ':', '['] ++
          (renderCommaSep (t.outputs.map Output.render) ++
            (']' :: ('\x7d' :: rest)))))) = none := rfl
    simp only [parseTx, h1, expectChars_append, parseString_renderStr, h2, h3, h4, h5, h6,
      Option.bind_eq_bind, Option.some_bind]
    rw [← hs]

theorem expectChars_single (c : Char) (X : List Char) : expectChars [c] (c :: X) = some X := by
  simp [expectChars]

theorem parseTxPair_render (k : String) (t : Transaction) (fuel : Nat) (rest : List Char)
    (h : t.outputs.length ≤ fuel) :
    parseTxPair fuel (pairRender (k, t) ++ rest) = some ((k, t), rest) := by
  have h1 : pairRender (k, t) ++ rest =
      '[' :: (renderStr k ++ (',' :: (Transaction.wireChars t ++ (']' :: rest)))) := by
    simp [pairRender]
  have h2 := parseTx_render t fuel (']' :: rest) h
  simp only [parseTxPair, h1, expectChars_single, parseString_renderStr, h2,
    Option.bind_eq_bind, Option.some_bind]

theorem parseTxPairsTail_rbrack (fuel : Nat) (cs : List Char) :
    parseTxPairsTail fuel (']' :: cs) = some ([], cs) := by
  cases fuel <;> rfl

theorem parseTxPairsTail_render (ps : List (String × Transaction)) :
    ∀ (fuel : Nat) (rest : List Char),
      ps.length + (ps.map (fun p => p.2.outputs.length)).sum ≤ fuel →
      parseTxPairsTail fuel (sepTail (ps.map pairRender) ++ (']' :: rest)) =
        some (ps, rest) := by
  induction ps with
  | nil =>
    intro fuel rest _
    rw [show sepTail ([].map pairRender) ++ (']' :: rest) = ']' :: rest from rfl]
    exact parseTxPairsTail_rbrack fuel rest
  | cons p ps ih =>
    intro fuel rest h
    obtain ⟨k, t⟩ := p
    obtain ⟨f, rfl⟩ : ∃ f, fuel = f + 1 := ⟨fuel - 1, by simp at h; omega⟩
    rw [show sepTail (((k, t) :: ps).map pairRender) ++ (']' :: rest) =
      ',' :: (pairRender (k, t) ++ (sepTail (ps.map pairRender) ++ (']' :: rest)))
      from by simp [sepTail]]
    rw [show parseTxPairsTail (f + 1)
        (',' :: (pairRender (k, t) ++ (sepTail (ps.map pairRender) ++ (']' :: rest)))) =
      (do
        let (p2, cs) ← parseTxPair f
          (pairRender (k, t) ++ (sepTail (ps.map pairRender) ++ (']' :: rest)))
        let (ps2, cs) ← parseTxPairsTail f cs
        some (p2 :: ps2, cs)) from rfl]
    rw [parseTxPair_render k t f _ (by simp at h; omega)]
    simp only [Option.bind_eq_bind, Option.some_bind]
    rw [ih f rest (by simp at h ⊢; omega)]
    simp only [Option.some_bind]

theorem parseTxPairs_ne (fuel : Nat) (c : Char) (cs : List Char) (h : c ≠ ']') :
    parseTxPairs fuel (c :: cs) =
      (do
        let (p, cs2) ← parseTxPair fuel (c :: cs)
        let (ps, cs3) ← parseTxPairsTail fuel cs2
        some (p :: ps, cs3)) := by
  rw [parseTxPairs.eq_def]
  split
  · next heq =>
    rw [List.cons.injEq] at heq
    first
      | exact absurd heq.1.symm h
      | exact absurd heq.1 h
  · rfl

theorem parseTxPairs_render (ps : List (String × Transaction)) (fuel : Nat) (rest : List Char)
    (h : ps.length + (ps.map (fun p => p.2.outputs.length)).sum ≤ fuel) :
    parseTxPairs fuel (renderCommaSep (ps.map pairRender) ++ (']' :: rest)) =
      some (ps, rest) := by
  cases ps with
  | nil => rfl
  | cons p ps =>
    obtain ⟨k, t⟩ := p
    rw [List.map_cons, renderCommaSep_cons, List.append_assoc]
    rw [show pairRender (k, t) = '[' ::
      (renderStr k ++ ',' :: (Transaction.wireChars t ++ [']'])) from rfl]
    rw [List.cons_append]
    rw [parseTxPairs_ne fuel _ _ (by decide)]
    rw [show '[' :: ((renderStr k ++ ',' :: (Transaction.wireChars t ++ [']'])) ++
        (sepTail (ps.map pairRender) ++ (']' :: rest))) =
      pairRender (k, t) ++ (sepTail (ps.map pairRender) ++ (']' :: rest)) from by
      simp [pairRender]]
    rw [parseTxPair_render k t fuel _ (by simp at h; omega)]
    simp only [Option.bind_eq_bind, Option.some_bind]
    rw [parseTxPairsTail_render ps fuel rest (by simp at h ⊢; omega)]
    simp only [Option.some_bind]

theorem len_render_output (o : Output) : 1 ≤ (Output.render o).length := by
  obtain ⟨t, ht⟩ : ∃ t, Output.render o = '\x7b' :: t := ⟨_, rfl⟩
  simp [ht]

theorem len_sepTail_outputs (os : List Output) :
    os.length ≤ (sepTail (os.map Output.render)).length := by
  induction os with
  | nil => simp [sepTail]
  | cons o os ih =>
    simp only [List.map_cons, sepTail, List.length_cons, List.length_append]
    omega

theorem len_renderComma_outputs (os : List Output) :
    os.length ≤ (renderCommaSep (os.map Output.render)).length := by
  cases os with
  | nil => simp
  | cons o os =>
    rw [List.map_cons, renderCommaSep_cons]
    have h1 := len_render_output o
    have h2 := len_sepTail_outputs os
    simp only [List.length_append, List.length_cons]
    omega

theorem len_wireChars (t : Transaction) : t.outputs.length ≤ (Transaction.wireChars t).length := by
  have h := len_renderComma_outputs t.outputs
  cases hs : t.sig <;>
    simp only [Transaction.wireChars, hs, List.length_append, List.length_cons,
      List.length_nil] <;>
    omega

theorem len_pairRender (p : String × Transaction) :
    p.2.outputs.length + 1 ≤ (pairRender p).length := by
  have h := len_wireChars p.2
  simp only [pairRender, List.length_cons, List.length_append]
  omega

theorem len_sepTail_pairs (ps : List (String × Transaction)) :
    ps.length + (ps.map (fun p => p.2.outputs.length)).sum ≤
      (sepTail (ps.map pairRender)).length := by
  induction ps with
  | nil => simp [sepTail]
  | cons p ps ih =>
    have h := len_pairRender p
    simp only [List.map_cons, sepTail, List.length_cons, List.length_append,
      List.sum_cons] at ih ⊢
    omega

theorem len_renderComma_pairs (ps : List (String × Transaction)) :
    ps.length + (ps.map (fun p => p.2.outputs.length)).sum ≤
      (renderCommaSep (ps.map pairRender)).length := by
  cases ps with
  | nil => simp
  | cons p ps =>
    rw [show List.map pairRender (p :: ps) = pairRender p :: List.map pairRender ps from rfl,
      renderCommaSep_cons]
    have h1 := len_pairRender p
    have h2 := len_sepTail_pairs ps
    simp only [List.length_append, List.length_cons, List.sum_cons, List.map_cons] at h2 ⊢
    omega

theorem len_serializeChars (b : Block) :
    b.transactions.length + (b.transactions.map (fun p => p.2.outputs.length)).sum ≤
      (Block.serializeChars b).length := by
  have h := len_renderComma_pairs b.transactions
  cases hp : b.proof <;>
    simp only [Block.serializeChars, hp, List.length_append, List.length_cons,
      List.length_nil] <;>
    omega

theorem noDigitHead_append (c : Char) (x y : List Char) (h : c.isDigit = false) :
    noDigitHead ((c :: x) ++ y) := h

theorem expectChars_proof_reward (X : List Char) :
    expectChars [',', '"', 'p', 'r', 'o', 'o', 'f', '"', ':']
      ([',', '"', 'r', 'e', 'w', 'a', 'r', 'd', 'A', 'd', 'd', 'r', '"', ':'] ++ X) =
      none := rfl

set_option maxHeartbeats 1000000 in
theorem parseBlockChars_render (b : Block) (fuel : Nat)
    (h : b.transactions.length + (b.transactions.map (fun p => p.2.outputs.length)).sum ≤
      fuel) :
    parseBlockChars fuel (Block.serializeChars b) =
      some { chainLength := b.chainLength, prevBlockHash := b.prevBlockHash,
             proof := b.proof, timestamp := b.timestamp, target := HIT_POW_TARGET,
             coinbaseReward := COINBASE_AMT_ALLOWED, rewardAddr := b.rewardAddr,
             transactions := b.transactions, balances := [], nextNonce := [] } := by
  cases hp : b.proof with
  | some p =>
    have h1 : Block.serializeChars b =
        ['\x7b', '"', 't', 'r', 'a', 'n', 's', 'a', 'c', 't', 'i', 'o', 'n', 's', '"',
          ':', '['] ++
        (renderCommaSep (b.transactions.map pairRender) ++ (']' ::
        ([',', '"', 'p', 'r', 'e', 'v', 'B', 'l', 'o', 'c', 'k', 'H', 'a', 's', 'h', '"',
          ':'] ++
        (renderStr b.prevBlockHash ++
        ([',', '"', 't', 'i', 'm', 'e', 's', 't', 'a', 'm', 'p', '"', ':'] ++
        (renderNat b.timestamp ++
        ([',', '"', 'p', 'r', 'o', 'o', 'f', '"', ':'] ++
        (renderNat p ++
        ([',', '"', 'r', 'e', 'w', 'a', 'r', 'd', 'A', 'd', 'd', 'r', '"', ':'] ++
        (renderStr b.rewardAddr ++
        ([',', '"', 'c', 'h', 'a', 'i', 'n', 'L', 'e', 'n', 'g', 't', 'h', '"', ':'] ++
        (renderNat b.chainLength ++ ['\x7d'])))))))))))) := by
      simp [Block.serializeChars, hp]
    simp only [parseBlockChars, h1, expectChars_append, Option.bind_eq_bind,
      Option.some_bind]
    rw [parseTxPairs_render b.transactions fuel _ h]
    simp only [Option.some_bind]
    rw [expectChars_append]
    simp only [Option.some_bind]
    rw [parseString_renderStr]
    simp only [Option.some_bind]
    rw [expectChars_append]
    simp only [Option.some_bind]
    rw [parseNat_renderNat _ _ (noDigitHead_append _ _ _ (by decide))]
    simp only [Option.some_bind]
    rw [expectChars_append]
    simp only [Option.some_bind]
    rw [parseNat_renderNat _ _ (noDigitHead_append _ _ _ (by decide))]
    simp only [Option.some_bind]
    rw [expectChars_append]
    simp only [Option.some_bind]
    rw [parseString_renderStr]
    simp only [Option.some_bind]
    rw [expectChars_append]
    simp only [Option.some_bind]
    rw [parseNat_renderNat _ _ (noDigitHead_cons _ _ (by decide))]
    simp only [Option.some_bind]
    rw [expectChars_single]
    simp only [Option.some_bind]
    rfl
  | none =>
    have h1 : Block.serializeChars b =
        ['\x7b', '"', 't', 'r', 'a', 'n', 's', 'a', 'c', 't', 'i', 'o', 'n', 's', '"',
          ':', '['] ++
        (renderCommaSep (b.transactions.map pairRender) ++ (']' ::
        ([',', '"', 'p', 'r', 'e', 'v', 'B', 'l', 'o', 'c', 'k', 'H', 'a', 's', 'h', '"',
          ':'] ++
        (renderStr b.prevBlockHash ++
        ([',', '"', 't', 'i', 'm', 'e', 's', 't', 'a', 'm', 'p', '"', ':'] ++
        (renderNat b.timestamp ++
        ([',', '"', 'r', 'e', 'w', 'a', 'r', 'd', 'A', 'd', 'd', 'r', '"', ':'] ++
        (renderStr b.rewardAddr ++
        ([',', '"', 'c', 'h', 'a', 'i', 'n', 'L', 'e', 'n', 'g', 't', 'h', '"', ':'] ++
        (renderNat b.chainLength ++ ['\x7d'])))))))))) := by
      simp [Block.serializeChars, hp]
    simp only [parseBlockChars, h1, expectChars_append, Option.bind_eq_bind,
      Option.some_bind]
    rw [parseTxPairs_render b.transactions fuel _ h]
    simp only [Option.some_bind]
    rw [expectChars_append]
    simp only [Option.some_bind]
    rw [parseString_renderStr]
    simp only [Option.some_bind]
    rw [expectChars_append]
    simp only [Option.some_bind]
    rw [parseNat_renderNat _ _ (noDigitHead_append _ _ _ (by decide))]
    simp only [Option.some_bind]
    rw [expectChars_proof_reward]
    simp only [Option.some_bind]
    rw [expectChars_append]
    simp only [Option.some_bind]
    rw [parseString_renderStr]
    simp only [Option.some_bind]
    rw [expectChars_append]
    simp only [Option.some_bind]
    rw [parseNat_renderNat _ _ (noDigitHead_cons _ _ (by decide))]
    simp only [Option.some_bind]
    rw [expectChars_single]
    simp only [Option.some_bind]
    rfl

/-- C2: For every block B, `Block.deserialize (Block.serialize B)` succeeds and the
resulting block has the same `hashVal` as B, because the serialization is canonical
JSON of exactly the fields transactions (ordered [id, tx] pairs), prevBlockHash,
timestamp, proof, rewardAddr, chainLength, in that order, and the parser recovers
each of them. -/
theorem serialize_roundtrip_hash (c : Crypto) (b : Block) :
    ∃ b2, Block.deserialize (Block.serialize b) = some b2 ∧
      Block.hashVal c b2 = Block.hashVal c b := by
  refine ⟨{ chainLength := b.chainLength, prevBlockHash := b.prevBlockHash,
            proof := b.proof, timestamp := b.timestamp, target := HIT_POW_TARGET,
            coinbaseReward := COINBASE_AMT_ALLOWED, rewardAddr := b.rewardAddr,
            transactions := b.transactions, balances := [], nextNonce := [] }, ?_, ?_⟩
  · exact parseBlockChars_render b b.serializeChars.length (len_serializeChars b)
  · rfl
